import Mathlib

/-!
# Verification of the telegram-trade-bot core against its specification

Shallow embedding of the signal parser (`src/encoding.ts`, parser section),
the deeplink transport (`encodeSignalForDeeplink` / `decodeSignalFromDeeplink`),
the order builder (`src/trader.ts`, `executeTrade`) and the limit-order
confirmation guard (`src/bot.ts`, `execute_limit` callback handler).

Modelling conventions:
* JavaScript strings are modelled as `List Char`; the byte level (UTF-8,
  base64url) uses `List Nat` with every byte `< 256`.
* JavaScript numbers are modelled as `ℚ`.  `NaN` is modelled as `none` in
  `Option ℚ` (abbreviated `JsNum`) at the places where the source can
  produce and propagate a `NaN` (take-profit lists); where a `NaN` or
  `null` is immediately consumed by a JS falsiness test the two are merged
  into `none`, which is behaviourally faithful there.
* Each regular expression of the source is embedded as a dedicated
  scanning function with JavaScript leftmost-match / greedy-with-backtrack
  semantics; each such function carries a doc comment citing the regex.
-/

namespace TradeBot

/-- JS number with `NaN`: `none` is `NaN`, `some q` a (finite) number. -/
abbrev JsNum := Option ℚ

/-- Characters matched by the regex class `\d`. -/
def isDigitC (c : Char) : Bool := c.isDigit

/-- Characters matched by `\s` (the whitespace forms occurring in this
repository's ASCII inputs: space, tab, newline, carriage return, form feed,
vertical tab). -/
def isWSC (c : Char) : Bool :=
  c = ' ' || c = '\t' || c = '\n' || c = '\r' || c = '\x0c' || c = '\x0b'

/-- Characters matched by the regex class `[:\s]`. -/
def isColonWS (c : Char) : Bool := c = ':' || isWSC c

/-- Characters matched by the regex class `[\d,]`. -/
def isNumTokChar (c : Char) : Bool := isDigitC c || c = ','

/-- ASCII letters: what `[A-Z]` matches under the `i` flag. -/
def isLetterC (c : Char) : Bool :=
  ('A' ≤ c && c ≤ 'Z') || ('a' ≤ c && c ≤ 'z')

/-- JS `\w` word characters `[A-Za-z0-9_]` (used for `\b` boundaries). -/
def isWordC (c : Char) : Bool := isLetterC c || isDigitC c || c = '_'

/-- Case-insensitive match of a literal (given in lower case) at the head of
the input; returns the rest on success.  Models a case-insensitive literal
piece of a regex. -/
def matchLitCI : List Char → List Char → Option (List Char)
  | [], s => some s
  | _, [] => none
  | l :: ls, c :: cs => if c.toLower = l then matchLitCI ls cs else none

/-- Value of a (most-significant-first) list of decimal digit characters. -/
def digitsVal (ds : List Char) : ℕ :=
  ds.foldl (fun a c => a * 10 + (c.toNat - '0'.toNat)) 0

/-- The greedy numeric token `([\d,]+\.?\d*)` taken at the head of the input
(the caller has checked that the head is a `[\d,]` character); returns the
captured token and the rest of the input after the match. -/
def numTok (s : List Char) : List Char × List Char :=
  let p1 := s.takeWhile isNumTokChar
  let r1 := s.drop p1.length
  match r1 with
  | '.' :: r2 =>
      let p2 := r2.takeWhile isDigitC
      (p1 ++ '.' :: p2, r2.drop p2.length)
  | _ => (p1, r1)

/-- `parseNumber` of `src/encoding.ts` (parser section, line 135):
`parseFloat(str.replace(/,/g, ''))` applied to a captured `[\d,]+\.?\d*`
token.  `none` models the `NaN` result (token consisting of commas and at
most a dot). -/
def parseNumber (tok : List Char) : JsNum :=
  let t := tok.filter (fun c => c ≠ ',')
  let I := t.takeWhile isDigitC
  let r := t.drop I.length
  match r with
  | '.' :: r2 =>
      let F := r2.takeWhile isDigitC
      if I.isEmpty && F.isEmpty then none
      else some ((digitsVal I : ℚ) + (digitsVal F : ℚ) / 10 ^ F.length)
  | _ => if I.isEmpty then none else some (digitsVal I)

/-- `parseInt(d, 10)` on a nonempty all-digit capture. -/
def parseIntDigits (ds : List Char) : ℚ := (digitsVal ds : ℚ)

/-! ## Scanning combinators (leftmost-match regex semantics) -/

/-- Scan the input left to right and return the first position at which
`tryAt` produces a match — the leftmost-match rule of `String.match`. -/
def scanFor (tryAt : List Char → Option α) : List Char → Option α
  | [] => tryAt []
  | c :: cs => (tryAt (c :: cs)).orElse fun _ => scanFor tryAt cs

/-- `RegExp.test` for a plain scanning pattern: does `tryAt` match at some
position? -/
def containsPat (tryAt : List Char → Option Unit) (s : List Char) : Bool :=
  (scanFor tryAt s).isSome

/-- Case-insensitive substring test (`/leverage/i.test(l)`, `/entry/i.test(l)`). -/
def containsLit (lit : List Char) (s : List Char) : Bool :=
  containsPat (fun t => (matchLitCI lit t).map fun _ => ()) s

/-- The piece `stop\s*loss` (resp. `take\s*profit`): literal, maximal
whitespace run, literal.  Giving whitespace back cannot help because the
following literal does not start with a whitespace character, so the
greedy run is forced. -/
def matchLitWsLit (l1 l2 : List Char) (s : List Char) : Option (List Char) :=
  (matchLitCI l1 s).bind fun r => matchLitCI l2 (r.dropWhile isWSC)

/-- `/stop\s*loss/i.test(l)`. -/
def containsStopLoss (s : List Char) : Bool :=
  containsPat (fun t => (matchLitWsLit "stop".data "loss".data t).map fun _ => ()) s

/-- `/take\s*profit/i.test(l)`. -/
def containsTakeProfit (s : List Char) : Bool :=
  containsPat (fun t => (matchLitWsLit "take".data "profit".data t).map fun _ => ()) s

/-- After an anchor: `[:\s]*` (forced maximal, since the digit/comma class
is disjoint from `[:\s]`) followed by the captured token `([\d,]+\.?\d*)`.
Returns the capture and the rest after the match. -/
def colonNum (s : List Char) : Option (List Char × List Char) :=
  let r := s.dropWhile isColonWS
  match r with
  | c :: _ => if isNumTokChar c then some (numTok r) else none
  | [] => none

/-! ## Data model (`src/types.ts`) -/

/-- `'LONG' | 'SHORT'` of `TradeSignal` in `src/types.ts`. -/
inductive Side | LONG | SHORT
deriving DecidableEq, Repr

/-- `TradeSignal` of `src/types.ts`.  `entryPrice` and `stopLoss` are plain
numbers (the parser's falsiness guards rule `NaN` out before a signal is
built); take-profit entries can be `NaN` (see `JsNum`). -/
structure TradeSignal where
  symbol : List Char
  side : Side
  entryPrice : ℚ
  takeProfits : List JsNum
  stopLoss : ℚ
  leverage : Option ℚ := none
  positionSize : Option ℚ := none
  raw : List Char
deriving DecidableEq, Repr

/-! ## String utilities used by the parser -/

/-- `message.split('\n')` (and `payload.split('|')`, `tps.split(',')`):
split at every occurrence of the separator. -/
def splitOnChar (sep : Char) : List Char → List (List Char)
  | [] => [[]]
  | c :: cs =>
      match splitOnChar sep cs with
      | [] => if c = sep then [[], [c]] else [[c]]   -- unreachable: result is never []
      | h :: t => if c = sep then [] :: h :: t else (c :: h) :: t

/-- `l.trim()`. -/
def trimWS (s : List Char) : List Char :=
  ((s.dropWhile isWSC).reverse.dropWhile isWSC).reverse

/-- Post-processing shared by both tiers: upper-case and append `USDT`
unless the symbol already ends with it (`if (!symbol.endsWith('USDT'))`). -/
def withUSDT (sym : List Char) : List Char :=
  if "USDT".data.isSuffixOf sym then sym else sym ++ "USDT".data

/-! ## The take-profit sort

`takeProfits.sort((a, b) => side === 'LONG' ? a - b : b - a)`
(`src/encoding.ts` parser section, lines 233 and 313).  `Array.prototype.sort`
with a consistent comparator produces a stable sorted array; a comparator
result of `NaN` is treated as `±0`, i.e. as "equal". -/

/-- The comparator, as a boolean "not after" relation: `a - b ≤ 0` for LONG,
`b - a ≤ 0` for SHORT; a `NaN` on either side gives comparator `NaN`,
treated as equal, hence `true` on both sides. -/
def leJs (side : Side) (a b : JsNum) : Bool :=
  match a, b with
  | some x, some y => if side = Side.LONG then decide (x ≤ y) else decide (y ≤ x)
  | _, _ => true

/-- Stable insertion: the new element goes after every element it is
"equal or after" under `le`. -/
def insertLe (le : α → α → Bool) (x : α) : List α → List α
  | [] => [x]
  | y :: ys => if le y x then y :: insertLe le x ys else x :: y :: ys

/-- Stable insertion sort, a model of `Array.prototype.sort(cmp)`. -/
def sortLe (le : α → α → Bool) (l : List α) : List α :=
  l.foldl (fun acc x => insertLe le x acc) []

/-- The sort applied to the extracted take-profit list in both tiers. -/
def sortTPs (side : Side) (l : List JsNum) : List JsNum := sortLe (leJs side) l

/-! ## Tier 1 — structured parser (`parseTradeSignal`) -/

/-- `/^([A-Z]{2,10})\s+(LONG|SHORT)/i` on the header line (line 147).
The quantifier can only stop at the end of the leading ASCII-letter run
(backtracking into the run puts a letter where `\s+` must match), so the
match exists iff that run has length 2–10 and is followed by at least one
whitespace and then `LONG` or `SHORT` (case-insensitive, prefix match). -/
def headerMatch (line : List Char) : Option (List Char × Side) :=
  let R := line.takeWhile isLetterC
  if 2 ≤ R.length ∧ R.length ≤ 10 then
    let r1 := line.drop R.length
    let W := r1.takeWhile isWSC
    if W.isEmpty then none
    else
      let r2 := r1.drop W.length
      if (matchLitCI "long".data r2).isSome then some (R, Side.LONG)
      else if (matchLitCI "short".data r2).isSome then some (R, Side.SHORT)
      else none
  else none

/-- `/(\d+)(?:\s*-\s*\d+)?x?/i` (line 165): everything after the capture is
optional, so the first match's capture is the first maximal digit run of
the line. -/
def levCaptureT1 (line : List Char) : Option (List Char) :=
  scanFor (fun s =>
    match s with
    | c :: _ => if isDigitC c then some (s.takeWhile isDigitC) else none
    | [] => none) line

/-- `/entry[:\s]*([\d,]+\.?\d*)/i` (line 176): leftmost position where the
literal is followed (after the forced-maximal `[:\s]*` run) by a `[\d,]`
character; capture is the greedy numeric token. -/
def entryCaptureT1 (line : List Char) : Option (List Char) :=
  scanFor (fun s =>
    (matchLitCI "entry".data s).bind fun r => (colonNum r).map Prod.fst) line

/-- `/stop\s*loss[:\s]*([\d,]+\.?\d*)/i` (line 186). -/
def slCaptureT1 (line : List Char) : Option (List Char) :=
  scanFor (fun s =>
    (matchLitWsLit "stop".data "loss".data s).bind fun r =>
      (colonNum r).map Prod.fst) line

/-- `/take\s*profit[:\s]*([\d,]+\.?\d*)\s*-\s*([\d,]+\.?\d*)/i` (line 197).
After the greedy first token the pattern needs `\s*-\s*`; every character
the first token could give back is in `[\d,.]`, never `-` or whitespace,
so backtracking cannot rescue a failed continuation and the linear
greedy reading is exact. -/
def tpRangeCaptureT1 (line : List Char) : Option (List Char × List Char) :=
  scanFor (fun s =>
    (matchLitWsLit "take".data "profit".data s).bind fun r =>
      (colonNum r).bind fun (cap1, r1) =>
        match r1.dropWhile isWSC with
        | '-' :: r2 =>
            match (r2.dropWhile isWSC) with
            | c :: _ =>
                if isNumTokChar c then
                  some (cap1, (numTok (r2.dropWhile isWSC)).fst)
                else none
            | [] => none
        | _ => none) line

/-- `/take\s*profit[:\s]*([\d,]+\.?\d*)/i` (line 204). -/
def tpSingleCaptureT1 (line : List Char) : Option (List Char) :=
  scanFor (fun s =>
    (matchLitWsLit "take".data "profit".data s).bind fun r =>
      (colonNum r).map Prod.fst) line

/-- The take-profit extraction of Tier 1 (lines 193–209): the range form
pushes both captures, else the single form pushes one; `parseNumber` can
push `NaN` (`none`). -/
def tpExtractT1 (line : List Char) : List JsNum :=
  match tpRangeCaptureT1 line with
  | some (c1, c2) => [parseNumber c1, parseNumber c2]
  | none =>
      match tpSingleCaptureT1 line with
      | some c => [parseNumber c]
      | none => []

/-! ## Tier 2 — generic parser (`parseTradeSignalGeneric`) -/

/-- `\b` before the next character of a match: holds iff the previous
character is not a word character (the patterns below continue with a
letter, which is a word character). -/
def scanForB (tryAt : Bool → List Char → Option α) : Bool → List Char → Option α
  | prevW, [] => tryAt prevW []
  | prevW, c :: cs => (tryAt prevW (c :: cs)).orElse fun _ => scanForB tryAt (isWordC c) cs

/-- `\b` after a match ending in a word character: next is a non-word
character or the end. -/
def bAfter : List Char → Bool
  | [] => true
  | c :: _ => !(isWordC c)

/-- The optional group `(USDT|USD|PERP)?` followed by the closing `\b`,
alternatives tried in order, then the empty alternative.  Only
satisfiability matters: the source uses `symbolMatch[1]`, which the
suffix does not contribute to. -/
def suffixBoundary (rest : List Char) : Bool :=
  (match matchLitCI "usdt".data rest with | some r => bAfter r | none => false) ||
  (match matchLitCI "usd".data rest with | some r => bAfter r | none => false) ||
  (match matchLitCI "perp".data rest with | some r => bAfter r | none => false) ||
  bAfter rest

/-- Greedy `{2,10}`: try the longest letter count first, down to 2. -/
def symbolTryK (s : List Char) : ℕ → Option (List Char)
  | 0 => none
  | k + 1 =>
      if k + 1 < 2 then none
      else if suffixBoundary (s.drop (k + 1)) then some (s.take (k + 1))
      else symbolTryK s k

/-- `/\b([A-Z]{2,10})(USDT|USD|PERP)?\b/i` (line 253), applied to the
upper-cased message; returns capture 1. -/
def symbolMatchG (text : List Char) : Option (List Char) :=
  scanForB (fun prevW s =>
    if prevW then none
    else symbolTryK s (min (s.takeWhile isLetterC).length 10)) false text

/-- One alternative of `/\b(LONG|SHORT|BUY|SELL)\b/i`: the word (given in
lower case) plus its trailing `\b`; returns the capture as it appears in
the upper-cased text. -/
def sideWord (w : List Char) (s : List Char) : Option (List Char) :=
  (matchLitCI w s).bind fun r =>
    if bAfter r then some (w.map Char.toUpper) else none

/-- `/\b(LONG|SHORT|BUY|SELL)\b/i` (line 264) on the upper-cased message;
returns capture 1. -/
def sideMatchG (text : List Char) : Option (List Char) :=
  scanForB (fun prevW s =>
    if prevW then none
    else (sideWord "long".data s).orElse fun _ =>
         (sideWord "short".data s).orElse fun _ =>
         (sideWord "buy".data s).orElse fun _ =>
         sideWord "sell".data s) false text

/-- `/(?:entry|@|price|enter)[:\s]*([\d,]+\.?\d*)/i` (line 274): at each
position the alternatives are tried in order, each with the full
continuation (`entry` can fail where its prefix `enter` succeeds). -/
def entryCaptureG (msg : List Char) : Option (List Char) :=
  scanFor (fun s =>
    ((matchLitCI "entry".data s).bind fun r => (colonNum r).map Prod.fst).orElse fun _ =>
    ((matchLitCI "@".data s).bind fun r => (colonNum r).map Prod.fst).orElse fun _ =>
    ((matchLitCI "price".data s).bind fun r => (colonNum r).map Prod.fst).orElse fun _ =>
    ((matchLitCI "enter".data s).bind fun r => (colonNum r).map Prod.fst)) msg

/-- `/(?:sl|stop\s*loss|stop)[:\s]*([\d,]+\.?\d*)/i` (line 291). -/
def slCaptureG (msg : List Char) : Option (List Char) :=
  scanFor (fun s =>
    ((matchLitCI "sl".data s).bind fun r => (colonNum r).map Prod.fst).orElse fun _ =>
    ((matchLitWsLit "stop".data "loss".data s).bind fun r => (colonNum r).map Prod.fst).orElse fun _ =>
    ((matchLitCI "stop".data s).bind fun r => (colonNum r).map Prod.fst)) msg

/-- After an anchor: `[:\s]*` followed by the capture `(\d+)`. -/
def colonDigits (s : List Char) : Option (List Char) :=
  let r := s.dropWhile isColonWS
  match r with
  | c :: _ => if isDigitC c then some (r.takeWhile isDigitC) else none
  | [] => none

/-- `/(?:lev|leverage)[:\s]*(\d+)/i` (line 298); `lev` is tried before
`leverage` at each position, each with the continuation. -/
def levCaptureG (msg : List Char) : Option (List Char) :=
  scanFor (fun s =>
    ((matchLitCI "lev".data s).bind colonDigits).orElse fun _ =>
    ((matchLitCI "leverage".data s).bind colonDigits)) msg

/-- Anchor alternation `(?:tp|take\s*profit|target)` (mutually exclusive by
their second or third character, so plain ordered choice is exact). -/
def tpAnchor (s : List Char) : Option (List Char) :=
  (matchLitCI "tp".data s).orElse fun _ =>
  (matchLitWsLit "take".data "profit".data s).orElse fun _ =>
  matchLitCI "target".data s

/-- One attempt of `/(?:tp|take\s*profit|target)\s*\d*[:\s]*([\d,]+\.?\d*)/gi`
(line 281) at the current position: anchor, forced-maximal `\s*`, greedy
`\d*`, maximal `[:\s]*`, then the capture.  If no `[\d,]` character follows,
the engine backtracks `\d*` by exactly one digit: that digit then satisfies
`[\d,]+` on its own (the character after the digit run is not in `[\d,]`,
else the first attempt had succeeded), and `\.?\d*` extends the capture.
Returns the capture and the rest of the input after the whole match. -/
def tpTryAt (s : List Char) : Option (List Char × List Char) :=
  (tpAnchor s).bind fun r0 =>
    let r1 := r0.dropWhile isWSC
    let D := r1.takeWhile isDigitC
    let r2 := r1.drop D.length
    match colonNum r2 with
    | some capRest => some capRest
    | none =>
        match D.getLast? with
        | some d =>
            match r2 with
            | '.' :: r4 =>
                let F := r4.takeWhile isDigitC
                some (d :: '.' :: F, r4.drop F.length)
            | _ => some ([d], r2)
        | none => none

/-- The `matchAll` loop of lines 280–287: collect every match left to
right, resuming after each match's end (`lastIndex`); push a parsed value
if it is `> 0` (false for `NaN`) and not yet present.  `fuel` bounds the
recursion; every step consumes at least one character, so
`msg.length + 1` is always enough. -/
def tpCollect : ℕ → List ℚ → List Char → List ℚ
  | 0, acc, _ => acc
  | fuel + 1, acc, s =>
      match tpTryAt s with
      | some (cap, rest) =>
          let acc' :=
            match parseNumber cap with
            | some v => if 0 < v ∧ v ∉ acc then acc ++ [v] else acc
            | none => acc
          tpCollect fuel acc' rest
      | none =>
          match s with
          | [] => acc
          | _ :: cs => tpCollect fuel acc cs

/-- `parseTradeSignalGeneric` (`src/encoding.ts` parser section,
lines 249–318). -/
def parseTradeSignalGeneric (msg : List Char) : Option TradeSignal :=
  let text := msg.map Char.toUpper
  match symbolMatchG text with
  | none => none
  | some symRaw =>
      let symbol := withUSDT symRaw
      match sideMatchG text with
      | none => none
      | some sideRaw =>
          let side := if sideRaw = "BUY".data ∨ sideRaw = "LONG".data
                      then Side.LONG else Side.SHORT
          let entryPrice : JsNum := (entryCaptureG msg).bind parseNumber
          let takeProfits : List ℚ := tpCollect (msg.length + 1) [] msg
          let stopLoss : JsNum := (slCaptureG msg).bind parseNumber
          let leverage : Option ℚ := (levCaptureG msg).map parseIntDigits
          match entryPrice, stopLoss with
          | some e, some s =>
              if e = 0 ∨ takeProfits = [] ∨ s = 0 then none
              else some { symbol, side, entryPrice := e,
                          takeProfits := sortTPs side (takeProfits.map some),
                          stopLoss := s, leverage, positionSize := none, raw := msg }
          | _, _ => none

/-- `parseTradeSignal` (`src/encoding.ts` parser section, lines 142–244).
A missing header returns `null` outright; missing entry / take-profits /
stop-loss (JS-falsy, so `0` and `NaN` count as missing) fall through to
the generic parser. -/
def parseTradeSignal (msg : List Char) : Option TradeSignal :=
  let lines := ((splitOnChar '\n' msg).map trimWS).filter (fun l => !l.isEmpty)
  let headerLine := lines.headD []
  match headerMatch headerLine with
  | none => none
  | some (symRaw, side) =>
      let symbol := withUSDT (symRaw.map Char.toUpper)
      let leverage : Option ℚ :=
        (lines.find? (containsLit "leverage".data)).bind fun l =>
          (levCaptureT1 l).map parseIntDigits
      let entryPrice : JsNum :=
        (lines.find? (containsLit "entry".data)).bind fun l =>
          (entryCaptureT1 l).bind parseNumber
      let stopLoss : JsNum :=
        (lines.find? containsStopLoss).bind fun l =>
          (slCaptureT1 l).bind parseNumber
      let takeProfits : List JsNum :=
        match lines.find? containsTakeProfit with
        | some l => tpExtractT1 l
        | none => []
      if entryPrice = none ∨ entryPrice = some 0 ∨ takeProfits = [] ∨
         stopLoss = none ∨ stopLoss = some 0 then
        parseTradeSignalGeneric msg
      else
        match entryPrice, stopLoss with
        | some e, some s =>
            -- the individual re-checks of lines 217–230 (dead after the guard)
            if e = 0 then none
            else if takeProfits = [] then none
            else if s = 0 then none
            else some { symbol, side, entryPrice := e,
                        takeProfits := sortTPs side takeProfits,
                        stopLoss := s, leverage, positionSize := none, raw := msg }
        | _, _ => none

/-! ## Number printing and parsing for the deeplink transport

`encodeSignalForDeeplink` stringifies prices with `Number.prototype.toString`
and the decoder reads them back with `parseFloat` / `Number`.  A finite JS
number is a decimal-representable rational; `toString` prints the shortest
decimal that round-trips.  The model prints the exact plain decimal form
(JS switches to exponential notation for `≥ 1e21` or `< 1e-6`; those forms
also round-trip in JS, the model simply normalises the spelling). -/

/-- `Nat.digitChar` of a decimal digit. -/
def digitChar (d : ℕ) : Char := Nat.digitChar d

/-- Decimal spelling of a natural number (`"0"` for zero). -/
def natStr (n : ℕ) : List Char :=
  if n = 0 then "0".data else (Nat.digits 10 n).reverse.map digitChar

/-- `p`-adic valuation computed with explicit fuel (the first argument);
fuel `n` is always sufficient for input `n`. -/
def padicFuel (p : ℕ) : ℕ → ℕ → ℕ
  | 0, _ => 0
  | fuel + 1, n =>
      if n % p = 0 ∧ n ≠ 0 ∧ 1 < p then padicFuel p fuel (n / p) + 1 else 0

/-- Exponent needed to clear a denominator `2^a * 5^b`: `max a b`. -/
def tenExp (d : ℕ) : ℕ := max (padicFuel 2 d d) (padicFuel 5 d d)

/-- `q` is a finite decimal (every finite JS number is). -/
def IsDecimal (q : ℚ) : Prop := (q.den : ℤ) ∣ 10 ^ tenExp q.den

instance (q : ℚ) : Decidable (IsDecimal q) := by unfold IsDecimal; infer_instance

/-- Left-pad with `'0'` to width `k` (fraction part of a decimal). -/
def padZeros (k : ℕ) (ds : List Char) : List Char :=
  List.replicate (k - ds.length) '0' ++ ds

/-- Plain decimal spelling of a non-negative decimal rational. -/
def posNumToString (q : ℚ) : List Char :=
  let k := tenExp q.den
  let M := (q * 10 ^ k).num.toNat
  if k = 0 then natStr M
  else natStr (M / 10 ^ k) ++ '.' :: padZeros k (natStr (M % 10 ^ k))

/-- `Number.prototype.toString` (plain decimal model, see section header). -/
def numToString (q : ℚ) : List Char :=
  if q < 0 then '-' :: posNumToString (-q) else posNumToString q

/-- `Array.prototype.join` stringification of one element: `NaN` prints as
`"NaN"`. -/
def jsNumToString (x : JsNum) : List Char :=
  match x with
  | none => "NaN".data
  | some q => numToString q

/-- `parseFloat`: skip whitespace, optional sign, longest `digits[.digits]`
prefix; `NaN` when no digit is found.  (The exponent / `Infinity` forms,
never produced by the encoder, are not modelled.) -/
def jsParseFloat (s : List Char) : JsNum :=
  let t := s.dropWhile isWSC
  let neg := t.head? = some '-'
  let t1 := if t.head? = some '-' ∨ t.head? = some '+' then t.tail else t
  let I := t1.takeWhile isDigitC
  let r := t1.drop I.length
  let F := if r.head? = some '.' then r.tail.takeWhile isDigitC else []
  if I.isEmpty && F.isEmpty then none
  else
    let v : ℚ := (digitsVal I : ℚ) + (digitsVal F : ℚ) / 10 ^ F.length
    some (if neg then -v else v)

/-- `Number(str)` (ToNumber on a string): whitespace-only is `0`, otherwise
the whole string must be a decimal numeral `[+-]?(digits[.digits?] | .digits)`.
(Hex / exponent forms, never produced by the encoder, are not modelled.) -/
def jsNumber (s : List Char) : JsNum :=
  let t := trimWS s
  if t.isEmpty then some 0
  else
    let neg := t.head? = some '-'
    let t1 := if t.head? = some '-' ∨ t.head? = some '+' then t.tail else t
    let I := t1.takeWhile isDigitC
    let r := t1.drop I.length
    if r.isEmpty then
      if I.isEmpty then none
      else some (if neg then -(digitsVal I : ℚ) else (digitsVal I : ℚ))
    else if r.head? = some '.' then
      let F := r.tail.takeWhile isDigitC
      if !(r.tail.drop F.length).isEmpty then none
      else if I.isEmpty && F.isEmpty then none
      else
        let v : ℚ := (digitsVal I : ℚ) + (digitsVal F : ℚ) / 10 ^ F.length
        some (if neg then -v else v)
    else none

/-- `parseInt(str, 10)`: skip whitespace, optional sign, digit prefix;
`NaN` when no digit is found. -/
def jsParseInt10 (s : List Char) : JsNum :=
  let t := s.dropWhile isWSC
  let neg := t.head? = some '-'
  let t1 := if t.head? = some '-' ∨ t.head? = some '+' then t.tail else t
  let I := t1.takeWhile isDigitC
  if I.isEmpty then none
  else some (if neg then -(digitsVal I : ℚ) else (digitsVal I : ℚ))

/-! ## UTF-8 and base64url (`Buffer.from(payload).toString('base64url')`
and `Buffer.from(encoded, 'base64url').toString('utf-8')`) -/

/-- UTF-8 encoding of one scalar value. -/
def utf8EncodeChar (c : Char) : List ℕ :=
  let v := c.toNat
  if v < 0x80 then [v]
  else if v < 0x800 then [0xC0 + v / 64, 0x80 + v % 64]
  else if v < 0x10000 then
    [0xE0 + v / 4096, 0x80 + v / 64 % 64, 0x80 + v % 64]
  else
    [0xF0 + v / 262144, 0x80 + v / 4096 % 64, 0x80 + v / 64 % 64, 0x80 + v % 64]

/-- UTF-8 encoding of a string. -/
def utf8Encode (s : List Char) : List ℕ := s.flatMap utf8EncodeChar

/-- Decoding of a multi-byte UTF-8 sequence headed by `b0 ≥ 0x80`: the
scalar value and the remaining input, or `none` for an invalid (or
overlong / surrogate / out-of-range) sequence. -/
def utf8Multi (b0 : ℕ) (r : List ℕ) : Option (ℕ × List ℕ) :=
  if b0 < 0xC0 then none
  else if b0 < 0xE0 then
    match r with
    | b1 :: r1 =>
        if 0x80 ≤ b1 ∧ b1 < 0xC0 then
          let v := (b0 - 0xC0) * 64 + (b1 - 0x80)
          if 0x80 ≤ v then some (v, r1) else none
        else none
    | _ => none
  else if b0 < 0xF0 then
    match r with
    | b1 :: b2 :: r2 =>
        if (0x80 ≤ b1 ∧ b1 < 0xC0) ∧ (0x80 ≤ b2 ∧ b2 < 0xC0) then
          let v := (b0 - 0xE0) * 4096 + (b1 - 0x80) * 64 + (b2 - 0x80)
          if 0x800 ≤ v ∧ (v < 0xD800 ∨ 0xE000 ≤ v) then some (v, r2) else none
        else none
    | _ => none
  else
    match r with
    | b1 :: b2 :: b3 :: r3 =>
        if (0x80 ≤ b1 ∧ b1 < 0xC0) ∧ (0x80 ≤ b2 ∧ b2 < 0xC0) ∧
           (0x80 ≤ b3 ∧ b3 < 0xC0) then
          let v := (b0 - 0xF0) * 262144 + (b1 - 0x80) * 4096 +
                   (b2 - 0x80) * 64 + (b3 - 0x80)
          if 0x10000 ≤ v ∧ v < 0x110000 then some (v, r3) else none
        else none
    | _ => none

/-- UTF-8 decoding with explicit fuel (every step consumes at least one
byte, so fuel `length + 1` is always sufficient).  `none` models a byte
sequence Node would render with replacement characters (which the field
validation of the decoder would then reject). -/
def utf8DecodeFuel : ℕ → List ℕ → Option (List Char)
  | _, [] => some []
  | 0, _ :: _ => none
  | fuel + 1, b0 :: r =>
      if b0 < 0x80 then
        (utf8DecodeFuel fuel r).map fun cs => Char.ofNat b0 :: cs
      else
        match utf8Multi b0 r with
        | some (v, rest) =>
            (utf8DecodeFuel fuel rest).map fun cs => Char.ofNat v :: cs
        | none => none

/-- UTF-8 decoding. -/
def utf8Decode (bs : List ℕ) : Option (List Char) :=
  utf8DecodeFuel (bs.length + 1) bs

/-- The base64url alphabet, sextet to character. -/
def b64Char (s : ℕ) : Char :=
  if s < 26 then Char.ofNat (65 + s)
  else if s < 52 then Char.ofNat (97 + (s - 26))
  else if s < 62 then Char.ofNat (48 + (s - 52))
  else if s = 62 then '-'
  else '_'

/-- Character to sextet (strict inverse; Node's decoder additionally
tolerates the standard alphabet and padding, which the encoder never
emits). -/
def b64Sextet (c : Char) : Option ℕ :=
  if 'A' ≤ c ∧ c ≤ 'Z' then some (c.toNat - 65)
  else if 'a' ≤ c ∧ c ≤ 'z' then some (26 + (c.toNat - 97))
  else if '0' ≤ c ∧ c ≤ '9' then some (52 + (c.toNat - 48))
  else if c = '-' then some 62
  else if c = '_' then some 63
  else none

/-- base64url encoding (no padding), three bytes to four characters. -/
def b64Encode : List ℕ → List Char
  | [] => []
  | [b0] => [b64Char (b0 / 4), b64Char (b0 % 4 * 16)]
  | [b0, b1] => [b64Char (b0 / 4), b64Char (b0 % 4 * 16 + b1 / 16),
                 b64Char (b1 % 16 * 4)]
  | b0 :: b1 :: b2 :: rest =>
      b64Char (b0 / 4) :: b64Char (b0 % 4 * 16 + b1 / 16) ::
      b64Char (b1 % 16 * 4 + b2 / 64) :: b64Char (b2 % 64) :: b64Encode rest

/-- Sextet list back to bytes (a single trailing sextet is invalid). -/
def b64Bytes : List ℕ → Option (List ℕ)
  | [] => some []
  | [_] => none
  | [s0, s1] => some [s0 * 4 + s1 / 16]
  | [s0, s1, s2] => some [s0 * 4 + s1 / 16, s1 % 16 * 16 + s2 / 4]
  | s0 :: s1 :: s2 :: s3 :: rest =>
      (b64Bytes rest).map fun bs =>
        (s0 * 4 + s1 / 16) :: (s1 % 16 * 16 + s2 / 4) :: (s2 % 4 * 64 + s3) :: bs

/-- Characters to sextets, failing on a character outside the alphabet. -/
def b64Sextets : List Char → Option (List ℕ)
  | [] => some []
  | c :: cs =>
      match b64Sextet c, b64Sextets cs with
      | some s, some ss => some (s :: ss)
      | _, _ => none

/-- base64url decoding. -/
def b64Decode (cs : List Char) : Option (List ℕ) :=
  (b64Sextets cs).bind b64Bytes

/-! ## The deeplink transport (`src/encoding.ts` lines 10–74) -/

/-- `Array.prototype.join(sep)`. -/
def joinSep (sep : Char) : List (List Char) → List Char
  | [] => []
  | [p] => p
  | p :: ps => p ++ sep :: joinSep sep ps

/-- `encodeSignalForDeeplink` (lines 10–23): join
`symbol | L/S | entry | tp1,tp2,... | sl | leverage-or-empty` with `|`,
then base64url-encode the UTF-8 bytes. -/
def encodeSignalForDeeplink (sig : TradeSignal) : List Char :=
  let parts : List (List Char) :=
    [sig.symbol,
     if sig.side = Side.LONG then "L".data else "S".data,
     numToString sig.entryPrice,
     joinSep ',' (sig.takeProfits.map jsNumToString),
     numToString sig.stopLoss,
     match sig.leverage with
     | some l => numToString l       -- `signal.leverage?.toString() || ''`
     | none => []]
  b64Encode (utf8Encode (joinSep '|' parts))

/-- `decodeSignalFromDeeplink` (lines 28–74). -/
def decodeSignalFromDeeplink (enc : List Char) : Option TradeSignal :=
  match (b64Decode enc).bind utf8Decode with
  | none => none
  | some payload =>
      let parts := splitOnChar '|' payload
      if parts.length < 5 then none
      else
        let symbol := parts.getD 0 []
        let sideS := parts.getD 1 []
        let entryS := parts.getD 2 []
        let tpsS := parts.getD 3 []
        let slS := parts.getD 4 []
        let levS := parts.getD 5 []   -- `undefined` when only 5 parts; falsy either way
        if symbol.isEmpty || sideS.isEmpty || entryS.isEmpty ||
           tpsS.isEmpty || slS.isEmpty then none
        else
          let takeProfits := (splitOnChar ',' tpsS).filterMap jsNumber
          if takeProfits.isEmpty then none
          else
            match jsParseFloat entryS, jsParseFloat slS with
            | some e, some s =>
                some { symbol,
                       side := if sideS = "L".data then Side.LONG else Side.SHORT,
                       entryPrice := e,
                       takeProfits := takeProfits.map some,
                       stopLoss := s,
                       leverage := if levS.isEmpty then none else jsParseInt10 levS,
                       positionSize := none,
                       raw := "[Decoded from deeplink]".data }
            | _, _ => none

/-! ## Risk calculator (`calculateRiskReward`, `src/encoding.ts` parser
section lines 340–344) -/

/-- `|entry - stopLoss|` risk, `|takeProfits[0] - entry|` reward,
`reward / risk`.  `none` models the non-finite results: `takeProfits[0]`
absent (`undefined - x` is `NaN`) or a `NaN` first target gives `NaN`;
a zero risk gives `Infinity` (or `NaN` if the reward is also zero).
No exception is raised in any case. -/
def calculateRiskReward (sig : TradeSignal) : JsNum :=
  let risk := |sig.entryPrice - sig.stopLoss|
  match sig.takeProfits.head? with
  | none => none
  | some none => none
  | some (some tp0) =>
      let reward := |tp0 - sig.entryPrice|
      if risk = 0 then none else some (reward / risk)

/-! ## Order builder (`src/trader.ts`) -/

/-- Global configuration (`src/config.ts` is not part of the sources;
modelled from the spec: the global sizing defaults consumed by
`executeTrade` as `config.defaultPositionSizeUsdt` / `config.defaultLeverage`). -/
structure Config where
  defaultPositionSizeUsdt : ℚ
  defaultLeverage : ℚ
deriving DecidableEq, Repr

/-- The optional third argument of `executeTrade`. -/
structure ExecOptions where
  positionSizeUsdt : Option ℚ := none
  leverage : Option ℚ := none
  useMarketOrder : Option Bool := none
deriving DecidableEq, Repr

/-- JS `a || b`: `b` when `a` is absent (`undefined`) or `0`. -/
def jsOr (a : Option ℚ) (b : ℚ) : ℚ :=
  match a with
  | some x => if x = 0 then b else x
  | none => b

/-- Line 38: `options?.positionSizeUsdt || signal.positionSize ||
config.defaultPositionSizeUsdt`. -/
def resolvePositionSize (opts : Option ExecOptions) (sig : TradeSignal)
    (cfg : Config) : ℚ :=
  jsOr (opts.bind (·.positionSizeUsdt))
    (jsOr sig.positionSize cfg.defaultPositionSizeUsdt)

/-- Line 39: `options?.leverage || signal.leverage || config.defaultLeverage`. -/
def resolveLeverage (opts : Option ExecOptions) (sig : TradeSignal)
    (cfg : Config) : ℚ :=
  jsOr (opts.bind (·.leverage)) (jsOr sig.leverage cfg.defaultLeverage)

/-- Line 40: `options?.useMarketOrder ?? false` (`??` only defaults the
absent case). -/
def resolveUseMarket (opts : Option ExecOptions) : Bool :=
  (opts.bind (·.useMarketOrder)).getD false

/-- `'BUY' | 'SELL'`. -/
inductive OrderSide | BUY | SELL
deriving DecidableEq, Repr

/-- `'LIMIT' | 'MARKET'`. -/
inductive OrderType | LIMIT | MARKET
deriving DecidableEq, Repr

/-- `'OPEN' | 'CLOSE'`. -/
inductive TradeSide | OPEN | CLOSE
deriving DecidableEq, Repr

/-- `'GTC' | 'IOC' | 'FOK' | 'POST_ONLY'`. -/
inductive Effect | GTC | IOC | FOK | POST_ONLY
deriving DecidableEq, Repr

/-- `'LAST' | 'MARK'`. -/
inductive StopType | LAST | MARK
deriving DecidableEq, Repr

/-- `BitunixOrderParams` of `src/types.ts` as populated by `executeTrade`
(price fields are kept as their numeric values; the source stringifies
them with `toString` at this point). -/
structure BitunixOrderParams where
  symbol : List Char
  side : OrderSide
  orderType : OrderType
  qty : ℚ
  price : Option ℚ := none
  tradeSide : TradeSide
  effect : Effect
  clientId : List Char
  tpPrice : JsNum
  tpStopType : StopType
  tpOrderType : OrderType
  slPrice : ℚ
  slStopType : StopType
  slOrderType : OrderType
deriving DecidableEq, Repr

/-- `qty.toFixed(8)` (lines 8–17, `calculateQuantity`): round to 8
fractional digits, kept as the rounded value. -/
def toFixed8 (q : ℚ) : ℚ := (⌊q * 10 ^ 8 + 1 / 2⌋ : ℚ) / 10 ^ 8

/-- The order construction of `executeTrade` (lines 42–71), given the
resolved sizing and a generated client id.  `none` models the `TypeError`
thrown by `signal.takeProfits[0].toString()` on an empty list, which the
surrounding `try` turns into a failure result — no order is placed. -/
def buildOrderParams (sig : TradeSignal) (positionSize leverage : ℚ)
    (useMarketOrder : Bool) (clientId : List Char) : Option BitunixOrderParams :=
  match sig.takeProfits.head? with
  | none => none
  | some tp0 =>
      let qty := toFixed8 (positionSize * leverage / sig.entryPrice)
      some { symbol := sig.symbol,
             side := if sig.side = Side.LONG then OrderSide.BUY else OrderSide.SELL,
             orderType := if useMarketOrder then OrderType.MARKET else OrderType.LIMIT,
             qty,
             tradeSide := TradeSide.OPEN,
             effect := Effect.GTC,
             clientId,
             tpPrice := tp0,
             tpStopType := StopType.MARK,
             tpOrderType := OrderType.MARKET,
             slPrice := sig.stopLoss,
             slStopType := StopType.MARK,
             slOrderType := OrderType.MARKET,
             price := if useMarketOrder then none else some sig.entryPrice }

/-- `executeTrade` (lines 29–71) up to the exchange call: resolve sizing,
then build the order request. -/
def executeTradeOrder (sig : TradeSignal) (opts : Option ExecOptions)
    (cfg : Config) (clientId : List Char) : Option BitunixOrderParams :=
  buildOrderParams sig (resolvePositionSize opts sig cfg)
    (resolveLeverage opts sig cfg) (resolveUseMarket opts) clientId

/-! ## Confirmation orchestrator (`src/bot.ts`, `execute_limit` branch of
the `callback_query` handler, lines 509–551) -/

/-- The per-user stored defaults of `UserData` (`src/types.ts` user-store
section) that the handler reads. -/
structure UserData where
  defaultLeverage : Option ℚ := none
  defaultPositionSizeUsdt : Option ℚ := none
deriving DecidableEq, Repr

/-- The options the handler passes to `executeTrade` for a limit
confirmation: the user's stored defaults (absent fields stay `undefined`)
and `useMarketOrder: false`. -/
def limitExecuteOptions (user : Option UserData) : ExecOptions :=
  { positionSizeUsdt := user.bind (·.defaultPositionSizeUsdt),
    leverage := user.bind (·.defaultLeverage),
    useMarketOrder := some false }

/-- Outcome of the `execute_limit` branch. -/
inductive LimitOutcome
  /-- The price warning is shown with `Execute at Market` / `Cancel`
  buttons; no order is submitted. -/
  | offerMarketOrCancel
  /-- `executeTrade` is invoked with the given options. -/
  | placeLimit (opts : ExecOptions)
deriving DecidableEq, Repr

/-- The `execute_limit` decision: with a truthy fetched price
(`if (currentPrice)` — `null`, `0` and `NaN` are all falsy) that has
crossed the entry in the order's favor, intercept; otherwise submit the
limit order with the user's stored defaults.  `fetched = none` models both
a `null` return of `getTickerPrice` and a `NaN` parse. -/
def executeLimitFlow (sig : TradeSignal) (fetched : JsNum)
    (user : Option UserData) : LimitOutcome :=
  match fetched with
  | some p =>
      if p ≠ 0 then
        if (if sig.side = Side.LONG then p ≤ sig.entryPrice else sig.entryPrice ≤ p)
        then LimitOutcome.offerMarketOrCancel
        else LimitOutcome.placeLimit (limitExecuteOptions user)
      else LimitOutcome.placeLimit (limitExecuteOptions user)
  | none => LimitOutcome.placeLimit (limitExecuteOptions user)

/-! ## Concrete inputs used by witnesses and counterexamples -/

/-- A plain LONG signal used by the C9 witness. -/
def sigRR : TradeSignal :=
  { symbol := "BTCUSDT".data, side := Side.LONG, entryPrice := 100,
    takeProfits := [some 110], stopLoss := 90, raw := "demo".data }

/-- A signal carrying its own leverage and position size (C2). -/
def sigC2 : TradeSignal :=
  { symbol := "BTCUSDT".data, side := Side.LONG, entryPrice := 100,
    takeProfits := [some 110], stopLoss := 90, leverage := some 5,
    positionSize := some 50, raw := "demo".data }

/-- A user with stored defaults differing from `sigC2`'s embedded values (C2). -/
def userC2 : UserData :=
  { defaultLeverage := some 20, defaultPositionSizeUsdt := some 200 }

/-- A global configuration record used by the C2/C6 witnesses. -/
def cfgDemo : Config := { defaultPositionSizeUsdt := 100, defaultLeverage := 10 }

/-- A LONG signal with entry 100 (C5). -/
def sigC5 : TradeSignal :=
  { symbol := "BTCUSDT".data, side := Side.LONG, entryPrice := 100,
    takeProfits := [some 110], stopLoss := 90, raw := "demo".data }

/-- A signal with two take-profit targets (C6). -/
def sigC6 : TradeSignal :=
  { symbol := "ETHUSDT".data, side := Side.SHORT, entryPrice := 3500,
    takeProfits := [some 3400, some 3300], stopLoss := 3600, raw := "demo".data }

/-! ## C9 — risk/reward -/

/-- **C9.** For every signal whose first take-profit is a number `tp0`, the
risk/reward calculation returns `|tp0 − entryPrice| / |entryPrice − stopLoss|`
(reward over risk, using only the first take-profit); when `entryPrice`
equals `stopLoss` it returns the `Infinity`/`NaN`-equivalent marker `none`
instead of raising an error (the function is total). -/
theorem C9_riskReward (sig : TradeSignal) (tp0 : ℚ)
    (h : sig.takeProfits.head? = some (some tp0)) :
    (sig.entryPrice ≠ sig.stopLoss →
      calculateRiskReward sig =
        some (|tp0 - sig.entryPrice| / |sig.entryPrice - sig.stopLoss|)) ∧
    (sig.entryPrice = sig.stopLoss → calculateRiskReward sig = none) := by
  unfold calculateRiskReward
  rw [h]
  constructor
  · intro hne
    have : |sig.entryPrice - sig.stopLoss| ≠ 0 := by
      simpa [abs_eq_zero, sub_eq_zero] using hne
    simp [this]
  · intro heq
    simp [heq]

/-- Witness for C9 at `sigRR`: entry 100, stop 90, first target 110 give
ratio 1. -/
theorem C9_riskReward_witness : calculateRiskReward sigRR = some 1 := by
  have h := (C9_riskReward sigRR 110 rfl).1 (by norm_num [sigRR])
  rw [h]; norm_num [sigRR]

/-! ## C6 — order construction -/

/-- **C6.** For every signal with at least one take-profit, any options,
configuration and generated client id, `executeTrade` builds exactly one
order request; it is `LIMIT` unless `MARKET` was explicitly requested
(`useMarketOrder`), a `LIMIT` order carries the signal's `entryPrice` as
its price while a `MARKET` order carries none, and both kinds attach
exactly the first take-profit `tp0` and the stop-loss with `MARK`-price
triggers and `MARKET` fill on trigger, time-in-force `GTC`, and the
generated client id. -/
theorem C6_orderConstruction (sig : TradeSignal) (opts : Option ExecOptions)
    (cfg : Config) (cid : List Char) (tp0 : JsNum) (rest : List JsNum)
    (h : sig.takeProfits = tp0 :: rest) :
    ∃ p, executeTradeOrder sig opts cfg cid = some p ∧
      p.orderType = (if resolveUseMarket opts then OrderType.MARKET
                     else OrderType.LIMIT) ∧
      (p.orderType = OrderType.LIMIT → p.price = some sig.entryPrice) ∧
      (p.orderType = OrderType.MARKET → p.price = none) ∧
      p.tpPrice = tp0 ∧ p.slPrice = sig.stopLoss ∧
      p.tpStopType = StopType.MARK ∧ p.slStopType = StopType.MARK ∧
      p.tpOrderType = OrderType.MARKET ∧ p.slOrderType = OrderType.MARKET ∧
      p.effect = Effect.GTC ∧ p.clientId = cid := by
  unfold executeTradeOrder buildOrderParams
  rw [h]
  cases hm : resolveUseMarket opts <;>
    exact ⟨_, rfl, by simp⟩

/-- Witness for C6: the limit-order request for `sigC6` carries entry 3500
as price and only the first target 3400. -/
theorem C6_orderConstruction_witness :
    ∃ p, executeTradeOrder sigC6 none cfgDemo "tg_1_x".data = some p ∧
      p.orderType = OrderType.LIMIT ∧ p.price = some 3500 ∧
      p.tpPrice = some 3400 := by
  obtain ⟨p, hp, hot, hlim, _, htp, _⟩ :=
    C6_orderConstruction sigC6 none cfgDemo "tg_1_x".data (some 3400)
      [some 3300] rfl
  refine ⟨p, hp, ?_, ?_, htp⟩
  · simpa [resolveUseMarket] using hot
  · exact hlim (by simpa [resolveUseMarket] using hot)

/-! ## C2 — sizing resolution -/

/-- **C2 counterexample.**  The claim says a signal-embedded leverage takes
precedence over the per-user stored default.  In the `execute_limit` flow
the handler passes the user's stored defaults as the per-call options, and
`executeTrade`'s chain `options?.leverage || signal.leverage || config`
therefore resolves the *user's* 20, not the signal's 5. -/
theorem C2_counterexample :
    sigC2.leverage = some 5 ∧ userC2.defaultLeverage = some 20 ∧
    resolveLeverage (some (limitExecuteOptions (some userC2))) sigC2 cfgDemo
      = 20 ∧ (20 : ℚ) ≠ 5 := by
  refine ⟨rfl, rfl, ?_, by norm_num⟩
  simp [resolveLeverage, limitExecuteOptions, userC2, jsOr]

/-- **C2 (amended).**  `executeTrade` resolves position size and leverage
as: truthy per-call option value, else truthy signal-embedded value, else
the global default — and the `execute_limit` handler passes the per-user
stored defaults *as* the per-call options, so a stored user default takes
precedence over a signal-embedded value (the spec's order of those two
tiers is reversed). -/
theorem C2_sizingResolution (opts : Option ExecOptions) (sig : TradeSignal)
    (cfg : Config) (user : Option UserData) :
    (∀ v, opts.bind (·.leverage) = some v → v ≠ 0 →
       resolveLeverage opts sig cfg = v) ∧
    ((opts.bind (·.leverage) = none ∨ opts.bind (·.leverage) = some 0) →
       ∀ w, sig.leverage = some w → w ≠ 0 → resolveLeverage opts sig cfg = w) ∧
    ((opts.bind (·.leverage) = none ∨ opts.bind (·.leverage) = some 0) →
       (sig.leverage = none ∨ sig.leverage = some 0) →
       resolveLeverage opts sig cfg = cfg.defaultLeverage) ∧
    (∀ v, opts.bind (·.positionSizeUsdt) = some v → v ≠ 0 →
       resolvePositionSize opts sig cfg = v) ∧
    ((opts.bind (·.positionSizeUsdt) = none ∨
        opts.bind (·.positionSizeUsdt) = some 0) →
       ∀ w, sig.positionSize = some w → w ≠ 0 →
         resolvePositionSize opts sig cfg = w) ∧
    ((opts.bind (·.positionSizeUsdt) = none ∨
        opts.bind (·.positionSizeUsdt) = some 0) →
       (sig.positionSize = none ∨ sig.positionSize = some 0) →
       resolvePositionSize opts sig cfg = cfg.defaultPositionSizeUsdt) ∧
    (limitExecuteOptions user).leverage = user.bind (·.defaultLeverage) ∧
    (limitExecuteOptions user).positionSizeUsdt =
      user.bind (·.defaultPositionSizeUsdt) := by
  refine ⟨?_, ?_, ?_, ?_, ?_, ?_, rfl, rfl⟩
  · intro v hv hne; simp [resolveLeverage, hv, jsOr, hne]
  · intro h0 w hw hne
    rcases h0 with h0 | h0 <;> simp [resolveLeverage, h0, hw, jsOr, hne]
  · intro h0 h1
    rcases h0 with h0 | h0 <;> rcases h1 with h1 | h1 <;>
      simp [resolveLeverage, h0, h1, jsOr]
  · intro v hv hne; simp [resolvePositionSize, hv, jsOr, hne]
  · intro h0 w hw hne
    rcases h0 with h0 | h0 <;> simp [resolvePositionSize, h0, hw, jsOr, hne]
  · intro h0 h1
    rcases h0 with h0 | h0 <;> rcases h1 with h1 | h1 <;>
      simp [resolvePositionSize, h0, h1, jsOr]

/-- Witness for C2: with no per-call options, `sigC2`'s embedded leverage 5
wins over the global default. -/
theorem C2_sizingResolution_witness :
    resolveLeverage none sigC2 cfgDemo = 5 := by
  exact (C2_sizingResolution none sigC2 cfgDemo none).2.1 (Or.inl rfl) 5 rfl
    (by norm_num)

/-! ## C5 — limit-order price guard -/

/-- **C5 counterexample.**  The claim says a fetched price that has crossed
the entry (current ≤ entry for LONG) is intercepted.  A fetched price of
`0` has crossed a LONG entry of 100, yet `if (currentPrice)` is false for
`0`, so the handler skips the guard and submits the limit order. -/
theorem C5_counterexample :
    sigC5.side = Side.LONG ∧ (0 : ℚ) ≤ sigC5.entryPrice ∧
    executeLimitFlow sigC5 (some 0) none =
      LimitOutcome.placeLimit (limitExecuteOptions none) := by
  refine ⟨rfl, by norm_num [sigC5], ?_⟩
  simp [executeLimitFlow]

/-- **C5 (amended).**  On a limit confirmation with a *truthy* fetched
price (nonzero; `none` models both `null` and `NaN`) that has crossed the
entry in the order's favor (current ≤ entry for LONG, current ≥ entry for
SHORT) the handler intercepts and offers market-execute or cancel; with a
truthy non-crossed price, with no fetched price (fail-open), or with the
falsy price `0`, the limit order proceeds. -/
theorem C5_limitGuard (sig : TradeSignal) (p : ℚ) (user : Option UserData) :
    (p ≠ 0 →
      (if sig.side = Side.LONG then p ≤ sig.entryPrice
       else sig.entryPrice ≤ p) →
      executeLimitFlow sig (some p) user = LimitOutcome.offerMarketOrCancel) ∧
    (p ≠ 0 →
      ¬(if sig.side = Side.LONG then p ≤ sig.entryPrice
        else sig.entryPrice ≤ p) →
      executeLimitFlow sig (some p) user =
        LimitOutcome.placeLimit (limitExecuteOptions user)) ∧
    executeLimitFlow sig none user =
      LimitOutcome.placeLimit (limitExecuteOptions user) ∧
    executeLimitFlow sig (some 0) user =
      LimitOutcome.placeLimit (limitExecuteOptions user) := by
  refine ⟨?_, ?_, rfl, by simp [executeLimitFlow]⟩
  · intro hp hcross; simp [executeLimitFlow, hp, hcross]
  · intro hp hcross; simp [executeLimitFlow, hp, hcross]

/-- Witness for C5: live price 95 intercepts the LONG entry 100; live
price 105 lets the limit order through. -/
theorem C5_limitGuard_witness :
    executeLimitFlow sigC5 (some 95) none = LimitOutcome.offerMarketOrCancel ∧
    executeLimitFlow sigC5 (some 105) none =
      LimitOutcome.placeLimit (limitExecuteOptions none) := by
  constructor
  · exact (C5_limitGuard sigC5 95 none).1 (by norm_num)
      (by norm_num [sigC5])
  · exact (C5_limitGuard sigC5 105 none).2.1 (by norm_num)
      (by norm_num [sigC5])

/-! ## C3 — the structured (Tier-1) scenario -/

/-- The C3 scenario input. -/
def msgC3 : List Char :=
  "BTC LONG\nLeverage: 10-25x\nEntry: 95,093 / Current Price 95,337.89\nStop Loss: 94,861.68\nTake Profit: 96,117.71".data

set_option maxRecDepth 100000 in
unseal Rat.add Rat.mul Rat.inv Rat.sub Rat.ofScientific in
/-- **C3.** Parsing the input
`"BTC LONG\nLeverage: 10-25x\nEntry: 95,093 / Current Price 95,337.89\nStop Loss: 94,861.68\nTake Profit: 96,117.71"`
succeeds and returns symbol `BTCUSDT`, side `LONG`, entryPrice `95093`
(thousands separator stripped, `/ Current Price` suffix ignored), stopLoss
`94861.68`, takeProfits `[96117.71]`, and leverage `10` (the lower bound of
the range `10-25x`). -/
theorem C3_scenarioBTC :
    parseTradeSignal msgC3 = some
      { symbol := "BTCUSDT".data, side := Side.LONG, entryPrice := 95093,
        takeProfits := [some (96117.71 : ℚ)], stopLoss := 94861.68,
        leverage := some 10, positionSize := none, raw := msgC3 } := by
  decide

/-! ## C1 — Tier-2 take-profit extraction on the ETH scenario -/

/-- The C1 scenario input. -/
def msgC1 : List Char := "ETH SHORT @ 3500 | TP: 3400, 3300 | SL: 3600".data

set_option maxRecDepth 100000 in
unseal Rat.add Rat.mul Rat.inv Rat.sub Rat.ofScientific in
/-- **C1 counterexample.**  The claim says both `3400` and `3300` are
captured, yielding takeProfits `[3400, 3300]`.  The Tier-2 regex
`/(?:tp|take\s*profit|target)\s*\d*[:\s]*([\d,]+\.?\d*)/gi` captures a
single numeric token per anchor occurrence; `3300` follows a comma, not an
anchor, so it is never captured. -/
theorem C1_counterexample :
    (parseTradeSignal msgC1).map TradeSignal.takeProfits ≠
      some [some (3400 : ℚ), some 3300] := by
  decide

set_option maxRecDepth 100000 in
unseal Rat.add Rat.mul Rat.inv Rat.sub Rat.ofScientific in
/-- **C1 (amended).**  The Tier-2 parser collects, for each occurrence of
an anchor `tp` / `take profit` / `target`, the single numeric token that
follows it (de-duplicated, in order of first appearance); a further
comma-separated value on the same line is not captured.  For the input
`"ETH SHORT @ 3500 | TP: 3400, 3300 | SL: 3600"` the parse succeeds with
side `SHORT`, entryPrice `3500`, stopLoss `3600` — and takeProfits
`[3400]` only. -/
theorem C1_tier2TakeProfits :
    parseTradeSignal msgC1 = some
      { symbol := "ETHUSDT".data, side := Side.SHORT, entryPrice := 3500,
        takeProfits := [some (3400 : ℚ)], stopLoss := 3600,
        leverage := none, positionSize := none, raw := msgC1 } := by
  decide

/-! ## Lemmas: case folding and substring scanning -/

theorem charOfNat_toNat {n : ℕ} (h : n.isValidChar) : (Char.ofNat n).toNat = n := by
  unfold Char.ofNat
  rw [dif_pos h]
  rfl

theorem charOfNat_toNat_self (c : Char) : Char.ofNat c.toNat = c := by
  have hv : c.toNat.isValidChar := c.valid
  apply Char.eq_of_val_eq
  unfold Char.ofNat
  rw [dif_pos hv]
  apply UInt32.eq_of_toBitVec_eq
  apply BitVec.eq_of_toNat_eq
  rfl

/-- ASCII case folding commutes: lowering an uppered character gives the
same result as lowering the character. -/
theorem toLower_toUpper (c : Char) : c.toUpper.toLower = c.toLower := by
  simp only [Char.toUpper, Char.toLower]
  by_cases h : 97 ≤ c.toNat ∧ c.toNat ≤ 122
  · rw [if_pos h]
    have hv : (c.toNat - 32).isValidChar := Or.inl (by omega)
    rw [charOfNat_toNat hv]
    rw [if_pos (by omega), if_neg (by omega)]
    have h32 : c.toNat - 32 + 32 = c.toNat := by omega
    rw [h32, charOfNat_toNat_self]
  · rw [if_neg h]

theorem matchLitCI_isSome_map_toUpper (lit : List Char) :
    ∀ s : List Char,
      (matchLitCI lit (s.map Char.toUpper)).isSome = (matchLitCI lit s).isSome := by
  induction lit with
  | nil => intro s; simp [matchLitCI]
  | cons l ls ih =>
      intro s
      cases s with
      | nil => rfl
      | cons c cs =>
          simp only [List.map_cons, matchLitCI, toLower_toUpper]
          by_cases hc : c.toLower = l
          · rw [if_pos hc, if_pos hc]; exact ih cs
          · rw [if_neg hc, if_neg hc]

theorem matchLitCI_append {lit u r : List Char} (v : List Char)
    (h : matchLitCI lit u = some r) : matchLitCI lit (u ++ v) = some (r ++ v) := by
  induction lit generalizing u r with
  | nil =>
      simp only [matchLitCI] at h ⊢
      obtain rfl : u = r := Option.some_inj.mp h
      rfl
  | cons l ls ih =>
      cases u with
      | nil => exact absurd h (by simp [matchLitCI])
      | cons c cs =>
          simp only [matchLitCI, List.cons_append] at h ⊢
          by_cases hc : c.toLower = l
          · rw [if_pos hc] at h ⊢; exact ih h
          · rw [if_neg hc] at h; exact absurd h (by simp)

theorem scanFor_some {tryAt : List Char → Option α} :
    ∀ {s : List Char} {x : α}, scanFor tryAt s = some x →
      ∃ t, t.IsSuffix s ∧ tryAt t = some x := by
  intro s
  induction s with
  | nil => intro x h; exact ⟨[], List.nil_suffix, h⟩
  | cons c cs ih =>
      intro x h
      simp only [scanFor] at h
      cases hc : tryAt (c :: cs) with
      | some y =>
          rw [hc] at h
          exact ⟨c :: cs, List.suffix_refl _, by simpa [Option.orElse] using h ▸ hc⟩
      | none =>
          rw [hc] at h
          simp only [Option.orElse, Option.none_orElse] at h
          obtain ⟨t, hts, hx⟩ := ih h
          exact ⟨t, hts.trans (List.suffix_cons c cs), hx⟩

theorem scanFor_isSome_of_suffix {tryAt : List Char → Option α}
    {s t : List Char} (hts : t.IsSuffix s) (h : (tryAt t).isSome) :
    (scanFor tryAt s).isSome := by
  induction s with
  | nil =>
      have : t = [] := List.eq_nil_of_suffix_nil hts
      subst this; exact h
  | cons c cs ih =>
      simp only [scanFor]
      rcases List.suffix_cons_iff.mp hts with hteq | hts'
      · subst hteq
        cases hx : tryAt (c :: cs) with
        | some y => simp [Option.orElse]
        | none => rw [hx] at h; exact absurd h (by simp)
      · cases hx : tryAt (c :: cs) with
        | some y => simp [Option.orElse]
        | none => simpa [Option.orElse] using ih hts'

theorem containsLit_iff {lit s : List Char} :
    containsLit lit s = true ↔ ∃ t, t.IsSuffix s ∧ (matchLitCI lit t).isSome := by
  unfold containsLit containsPat
  constructor
  · intro h
    rw [Option.isSome_iff_exists] at h
    obtain ⟨u, hu⟩ := h
    obtain ⟨t, hts, ht⟩ := scanFor_some hu
    refine ⟨t, hts, ?_⟩
    cases hm : matchLitCI lit t with
    | none => rw [hm] at ht; exact absurd ht (by simp)
    | some r => simp
  · rintro ⟨t, hts, ht⟩
    apply scanFor_isSome_of_suffix hts
    cases hm : matchLitCI lit t with
    | none => rw [hm] at ht; exact absurd ht (by simp)
    | some r => simp

theorem containsLit_map_toUpper (lit : List Char) :
    ∀ s : List Char, containsLit lit (s.map Char.toUpper) = containsLit lit s := by
  intro s
  unfold containsLit containsPat
  induction s with
  | nil =>
      simp only [List.map_nil]
  | cons c cs ih =>
      simp only [List.map_cons, scanFor]
      have h1 : (matchLitCI lit (Char.toUpper c :: cs.map Char.toUpper)).isSome =
          (matchLitCI lit (c :: cs)).isSome := by
        simpa using matchLitCI_isSome_map_toUpper lit (c :: cs)
      cases hm : matchLitCI lit (c :: cs) with
      | some r =>
          rw [hm] at h1
          simp only [Option.isSome_some] at h1
          obtain ⟨r', hr'⟩ := Option.isSome_iff_exists.mp h1
          simp [hr', hm, Option.orElse]
      | none =>
          rw [hm] at h1
          have h2 : matchLitCI lit (Char.toUpper c :: cs.map Char.toUpper) = none := by
            cases hx : matchLitCI lit (Char.toUpper c :: cs.map Char.toUpper) with
            | none => rfl
            | some y => rw [hx] at h1; exact absurd h1 (by simp)
          simp only [h2, hm, Option.map_none, Option.none_orElse, Option.orElse]
          exact ih

theorem containsLit_of_isInfixOf {lit u s : List Char} (hinf : u.IsInfix s)
    (h : (matchLitCI lit u).isSome) : containsLit lit s = true := by
  obtain ⟨x, y, rfl⟩ := hinf
  cases hm : matchLitCI lit u with
  | none => rw [hm] at h; exact absurd h (by simp)
  | some r =>
      apply containsLit_iff.mpr
      exact ⟨u ++ y, ⟨x, by simp⟩, by rw [matchLitCI_append y hm]; simp⟩

theorem containsLit_mono {lit u s : List Char} (hinf : u.IsInfix s)
    (h : containsLit lit u = true) : containsLit lit s = true := by
  obtain ⟨t, hts, ht⟩ := containsLit_iff.mp h
  exact containsLit_of_isInfixOf (hts.isInfix.trans hinf) ht

theorem splitOnChar_structure (sep : Char) :
    ∀ s : List Char, ∃ hd tl, splitOnChar sep s = hd :: tl ∧
      hd.IsPrefix s ∧ ∀ p ∈ tl, p.IsInfix s := by
  intro s
  induction s with
  | nil => exact ⟨[], [], rfl, List.nil_prefix, by simp⟩
  | cons c cs ih =>
      obtain ⟨hd, tl, heq, hpre, htl⟩ := ih
      by_cases hc : c = sep
      · refine ⟨[], hd :: tl, ?_, List.nil_prefix, ?_⟩
        · simp [splitOnChar, heq, hc]
        · intro p hp
          rcases List.mem_cons.mp hp with rfl | hp'
          · exact hpre.isInfix.trans (List.infix_cons (List.infix_refl cs))
          · exact (htl p hp').trans (List.infix_cons (List.infix_refl cs))
      · refine ⟨c :: hd, tl, ?_, ?_, ?_⟩
        · simp [splitOnChar, heq, hc]
        · obtain ⟨t, rfl⟩ := hpre; exact ⟨t, rfl⟩
        · intro p hp
          exact (htl p hp).trans (List.infix_cons (List.infix_refl cs))

theorem mem_splitOnChar_isInfixOf {sep : Char} {s p : List Char}
    (h : p ∈ splitOnChar sep s) : p.IsInfix s := by
  obtain ⟨hd, tl, heq, hpre, htl⟩ := splitOnChar_structure sep s
  rw [heq] at h
  rcases List.mem_cons.mp h with rfl | h'
  · exact hpre.isInfix
  · exact htl p h'

theorem trimWS_isInfixOf (s : List Char) : (trimWS s).IsInfix s := by
  unfold trimWS
  have h1 : (s.dropWhile isWSC).IsSuffix s := List.dropWhile_suffix _
  have h2 : (((s.dropWhile isWSC).reverse.dropWhile isWSC).reverse).IsPrefix
      (s.dropWhile isWSC) := by
    rw [← List.reverse_suffix]
    simpa using List.dropWhile_suffix (l := (s.dropWhile isWSC).reverse) isWSC
  exact h2.isInfix.trans h1.isInfix

theorem headerMatch_side {line : List Char} {x : List Char × Side}
    (h : headerMatch line = some x) :
    containsLit "long".data line = true ∨ containsLit "short".data line = true := by
  simp only [headerMatch] at h
  split at h
  · split at h
    · exact absurd h (by simp)
    · set r2 := (line.drop (line.takeWhile isLetterC).length).drop
        ((line.drop (line.takeWhile isLetterC).length).takeWhile isWSC).length with hr2
      have hsuf : r2.IsSuffix line :=
        (List.drop_suffix _ _).trans (List.drop_suffix _ _)
      split at h
      · exact Or.inl (containsLit_of_isInfixOf hsuf.isInfix (by assumption))
      · split at h
        · exact Or.inr (containsLit_of_isInfixOf hsuf.isInfix (by assumption))
        · exact absurd h (by simp)
  · exact absurd h (by simp)

theorem scanForB_some {tryAt : Bool → List Char → Option α} :
    ∀ {b : Bool} {s : List Char} {x : α}, scanForB tryAt b s = some x →
      ∃ b' t, t.IsSuffix s ∧ tryAt b' t = some x := by
  intro b s
  induction s generalizing b with
  | nil => intro x h; exact ⟨b, [], List.nil_suffix, h⟩
  | cons c cs ih =>
      intro x h
      simp only [scanForB] at h
      cases hc : tryAt b (c :: cs) with
      | some y =>
          rw [hc] at h
          simp only [Option.orElse, Option.some_orElse] at h
          exact ⟨b, c :: cs, List.suffix_refl _, by rw [hc, ← h]⟩
      | none =>
          rw [hc] at h
          simp only [Option.orElse, Option.none_orElse] at h
          obtain ⟨b', t, hts, hx⟩ := ih h
          exact ⟨b', t, hts.trans (List.suffix_cons c cs), hx⟩

theorem sideWord_isSome {w s : List Char} {x : List Char}
    (h : sideWord w s = some x) : (matchLitCI w s).isSome := by
  unfold sideWord at h
  cases hm : matchLitCI w s with
  | none => rw [hm] at h; exact absurd h (by simp)
  | some r => simp

theorem sideMatchG_side {text : List Char} {w : List Char}
    (h : sideMatchG text = some w) :
    containsLit "long".data text = true ∨ containsLit "short".data text = true ∨
    containsLit "buy".data text = true ∨ containsLit "sell".data text = true := by
  unfold sideMatchG at h
  obtain ⟨b', t, hts, ht⟩ := scanForB_some h
  split at ht
  · exact absurd ht (by simp)
  · rcases h1 : sideWord "long".data t with _ | x1
    case some =>
      exact Or.inl (containsLit_of_isInfixOf hts.isInfix (sideWord_isSome h1))
    rw [h1] at ht
    simp only [Option.orElse, Option.none_orElse] at ht
    rcases h2 : sideWord "short".data t with _ | x2
    case some =>
      exact Or.inr (Or.inl (containsLit_of_isInfixOf hts.isInfix (sideWord_isSome h2)))
    rw [h2] at ht
    simp only [Option.orElse, Option.none_orElse] at ht
    rcases h3 : sideWord "buy".data t with _ | x3
    case some =>
      exact Or.inr (Or.inr (Or.inl (containsLit_of_isInfixOf hts.isInfix (sideWord_isSome h3))))
    rw [h3] at ht
    simp only [Option.orElse, Option.none_orElse] at ht
    exact Or.inr (Or.inr (Or.inr (containsLit_of_isInfixOf hts.isInfix (sideWord_isSome ht))))

/-- The header line of Tier 1 is an infix of the message. -/
theorem headerLine_isInfixOf (msg : List Char) :
    ((((splitOnChar '\n' msg).map trimWS).filter
        (fun l => !l.isEmpty)).headD []).IsInfix msg := by
  set lines := (((splitOnChar '\n' msg).map trimWS).filter (fun l => !l.isEmpty))
    with hlines
  cases hl : lines with
  | nil => simp [hl, List.headD]
  | cons h t =>
      have hmem : h ∈ lines := by rw [hl]; exact List.mem_cons_self _ _
      rw [hlines] at hmem
      obtain ⟨p, hp, rfl⟩ := List.mem_map.mp (List.mem_of_mem_filter hmem)
      simp only [hl, List.headD_cons]
      exact (trimWS_isInfixOf p).trans (mem_splitOnChar_isInfixOf hp)

/-! ## C8 — malformed input fails, never throws -/

/-- **C8.** Parsing is a total function into `Option` (never throws); for
every input in which none of the side keywords `LONG`/`SHORT`/`BUY`/`SELL`
occurs (case-insensitively, `containsLit` being the substring test used by
the regex scans), both the Tier-1 parse and the Tier-2 generic parse
return the failure value `none`: Tier 1 needs `LONG|SHORT` after the
header symbol and Tier 2 needs a `LONG|SHORT|BUY|SELL` keyword. -/
theorem C8_parseNeverThrows (msg : List Char)
    (h1 : containsLit "long".data msg = false)
    (h2 : containsLit "short".data msg = false)
    (h3 : containsLit "buy".data msg = false)
    (h4 : containsLit "sell".data msg = false) :
    parseTradeSignal msg = none ∧ parseTradeSignalGeneric msg = none := by
  have hgen : parseTradeSignalGeneric msg = none := by
    simp only [parseTradeSignalGeneric]
    cases hsym : symbolMatchG (msg.map Char.toUpper) with
    | none => rfl
    | some symRaw =>
        cases hside : sideMatchG (msg.map Char.toUpper) with
        | none => rfl
        | some w =>
            exfalso
            rcases sideMatchG_side hside with hc | hc | hc | hc <;>
              rw [containsLit_map_toUpper] at hc <;> simp_all
  refine ⟨?_, hgen⟩
  simp only [parseTradeSignal]
  cases hh : headerMatch ((((splitOnChar '\n' msg).map trimWS).filter
      (fun l => !l.isEmpty)).headD []) with
  | none => rfl
  | some x =>
      exfalso
      rcases headerMatch_side hh with hc | hc <;>
        [have hd := containsLit_mono (headerLine_isInfixOf msg) hc;
         have hd := containsLit_mono (headerLine_isInfixOf msg) hc] <;> simp_all

/-- Witness for C8: a message with no side keyword parses to `none` in both
tiers. -/
theorem C8_parseNeverThrows_witness :
    parseTradeSignal "no trade here".data = none ∧
    parseTradeSignalGeneric "no trade here".data = none :=
  C8_parseNeverThrows "no trade here".data (by decide) (by decide) (by decide)
    (by decide)

/-! ## Lemmas: the insertion-sort model of `Array.prototype.sort` -/

theorem mem_insertLe {le : α → α → Bool} {x a : α} :
    ∀ {l : List α}, a ∈ insertLe le x l ↔ a = x ∨ a ∈ l := by
  intro l
  induction l with
  | nil => simp [insertLe]
  | cons y ys ih =>
      simp only [insertLe]
      by_cases hle : le y x
      · rw [if_pos hle]
        simp only [List.mem_cons, ih]
        tauto
      · rw [if_neg hle]
        simp only [List.mem_cons]

theorem mem_foldl_insertLe {le : α → α → Bool} {a : α} :
    ∀ (l acc : List α),
      a ∈ l.foldl (fun acc x => insertLe le x acc) acc ↔ a ∈ acc ∨ a ∈ l := by
  intro l
  induction l with
  | nil => simp
  | cons x xs ih =>
      intro acc
      simp only [List.foldl_cons, ih, mem_insertLe, List.mem_cons]
      tauto

theorem mem_sortLe {le : α → α → Bool} {a : α} {l : List α} :
    a ∈ sortLe le l ↔ a ∈ l := by
  unfold sortLe
  rw [mem_foldl_insertLe]
  simp

theorem length_insertLe {le : α → α → Bool} {x : α} :
    ∀ {l : List α}, (insertLe le x l).length = l.length + 1 := by
  intro l
  induction l with
  | nil => rfl
  | cons y ys ih =>
      simp only [insertLe]
      by_cases hle : le y x
      · rw [if_pos hle]; simp [ih]
      · rw [if_neg hle]; simp

theorem length_sortLe {le : α → α → Bool} {l : List α} :
    (sortLe le l).length = l.length := by
  suffices h : ∀ (l acc : List α),
      (l.foldl (fun acc x => insertLe le x acc) acc).length =
        acc.length + l.length by
    simpa using h l []
  intro l
  induction l with
  | nil => simp
  | cons x xs ih =>
      intro acc
      simp only [List.foldl_cons, ih, length_insertLe, List.length_cons]
      omega

theorem pairwise_insertLe {le : α → α → Bool}
    (htot : ∀ a b, le a b = true ∨ le b a = true)
    (htrans : ∀ a b c, le a b = true → le b c = true → le a c = true)
    {x : α} : ∀ {l : List α}, l.Pairwise (fun a b => le a b = true) →
    (insertLe le x l).Pairwise (fun a b => le a b = true) := by
  intro l
  induction l with
  | nil => intro _; simp [insertLe]
  | cons y ys ih =>
      intro h
      rw [List.pairwise_cons] at h
      obtain ⟨hy, hys⟩ := h
      simp only [insertLe]
      by_cases hle : le y x
      · rw [if_pos hle]
        rw [List.pairwise_cons]
        refine ⟨?_, ih hys⟩
        intro z hz
        rcases mem_insertLe.mp hz with rfl | hz'
        · exact hle
        · exact hy z hz'
      · rw [if_neg hle]
        rw [List.pairwise_cons]
        have hxy : le x y = true := by
          rcases htot x y with h' | h'
          · exact h'
          · exact absurd h' hle
        refine ⟨?_, List.pairwise_cons.mpr ⟨hy, hys⟩⟩
        intro z hz
        rcases List.mem_cons.mp hz with rfl | hz'
        · exact hxy
        · exact htrans x y z hxy (hy z hz')

theorem pairwise_sortLe {le : α → α → Bool}
    (htot : ∀ a b, le a b = true ∨ le b a = true)
    (htrans : ∀ a b c, le a b = true → le b c = true → le a c = true)
    {l : List α} :
    (sortLe le l).Pairwise (fun a b => le a b = true) := by
  suffices h : ∀ (l acc : List α),
      acc.Pairwise (fun a b => le a b = true) →
      (l.foldl (fun acc x => insertLe le x acc) acc).Pairwise
        (fun a b => le a b = true) from
    h l [] (by simp)
  intro l
  induction l with
  | nil => intro acc h; simpa using h
  | cons x xs ih =>
      intro acc h
      exact ih _ (pairwise_insertLe htot htrans h)

/-- The `ℚ`-level comparator underlying `leJs` on NaN-free lists. -/
def leQ (side : Side) (a b : ℚ) : Bool :=
  if side = Side.LONG then decide (a ≤ b) else decide (b ≤ a)

theorem insertLe_map_some (side : Side) (x : ℚ) :
    ∀ (l : List ℚ),
      insertLe (leJs side) (some x) (l.map some) =
        (insertLe (leQ side) x l).map some := by
  intro l
  induction l with
  | nil => rfl
  | cons y ys ih =>
      simp only [List.map_cons, insertLe]
      have hle : leJs side (some y) (some x) = leQ side y x := rfl
      rw [hle]
      by_cases h : leQ side y x
      · rw [if_pos h, if_pos h, ih]; rfl
      · rw [if_neg h, if_neg h]; rfl

theorem sortTPs_map_some (side : Side) (l : List ℚ) :
    sortTPs side (l.map some) = (sortLe (leQ side) l).map some := by
  unfold sortTPs sortLe
  suffices h : ∀ (l acc : List ℚ),
      (l.map some).foldl (fun acc x => insertLe (leJs side) x acc)
          (acc.map some) =
        (l.foldl (fun acc x => insertLe (leQ side) x acc) acc).map some by
    simpa using h l []
  intro l
  induction l with
  | nil => intro acc; rfl
  | cons x xs ih =>
      intro acc
      simp only [List.map_cons, List.foldl_cons]
      rw [insertLe_map_some, ih]

theorem exists_map_some_of_ne_none :
    ∀ {l : List JsNum}, (∀ x ∈ l, x ≠ none) → ∃ l₀ : List ℚ, l = l₀.map some := by
  intro l
  induction l with
  | nil => intro _; exact ⟨[], rfl⟩
  | cons x xs ih =>
      intro h
      obtain ⟨l₀, rfl⟩ := ih fun y hy => h y (List.mem_cons_of_mem x hy)
      cases x with
      | none => exact absurd rfl (h none (List.mem_cons_self _ _))
      | some q => exact ⟨q :: l₀, rfl⟩

/-! ## Lemmas: the shape of every successfully parsed signal -/

theorem parseNumber_nonneg {tok : List Char} {v : ℚ}
    (h : parseNumber tok = some v) : 0 ≤ v := by
  simp only [parseNumber] at h
  split at h
  · split at h
    · exact absurd h (by simp)
    · obtain rfl : _ = v := Option.some_inj.mp h
      positivity
  · split at h
    · exact absurd h (by simp)
    · obtain rfl : _ = v := Option.some_inj.mp h
      positivity

theorem parseGeneric_shape {msg : List Char} {sig : TradeSignal}
    (h : parseTradeSignalGeneric msg = some sig) :
    (∃ l : List JsNum, sig.takeProfits = sortTPs sig.side l ∧ l ≠ []) ∧
    0 < sig.entryPrice ∧ 0 < sig.stopLoss := by
  simp only [parseTradeSignalGeneric] at h
  split at h
  · exact absurd h (by simp)
  · split at h
    · exact absurd h (by simp)
    · split at h
      case _ e s heqE heqS =>
        split at h
        · exact absurd h (by simp)
        case _ hng =>
          push_neg at hng
          obtain ⟨hne, htps, hns⟩ := hng
          obtain rfl : _ = sig := Option.some_inj.mp h
          refine ⟨⟨_, rfl, by simpa using htps⟩, ?_, ?_⟩
          · rw [Option.bind_eq_some] at heqE
            obtain ⟨tok, _, htok⟩ := heqE
            exact lt_of_le_of_ne (parseNumber_nonneg htok) (Ne.symm hne)
          · rw [Option.bind_eq_some] at heqS
            obtain ⟨tok, _, htok⟩ := heqS
            exact lt_of_le_of_ne (parseNumber_nonneg htok) (Ne.symm hns)
      case _ => exact absurd h (by simp)

theorem parse_shape {msg : List Char} {sig : TradeSignal}
    (h : parseTradeSignal msg = some sig) :
    (∃ l : List JsNum, sig.takeProfits = sortTPs sig.side l ∧ l ≠ []) ∧
    0 < sig.entryPrice ∧ 0 < sig.stopLoss := by
  simp only [parseTradeSignal] at h
  split at h
  · exact absurd h (by simp)
  · split at h
    · exact parseGeneric_shape h
    · split at h
      case _ e s heqE heqS =>
        split at h
        · exact absurd h (by simp)
        case _ hne =>
          split at h
          · exact absurd h (by simp)
          case _ htps =>
            split at h
            · exact absurd h (by simp)
            case _ hns =>
              obtain rfl : _ = sig := Option.some_inj.mp h
              refine ⟨⟨_, rfl, htps⟩, ?_, ?_⟩
              · rw [Option.bind_eq_some] at heqE
                obtain ⟨line, _, hline⟩ := heqE
                rw [Option.bind_eq_some] at hline
                obtain ⟨tok, _, htok⟩ := hline
                exact lt_of_le_of_ne (parseNumber_nonneg htok) (Ne.symm hne)
              · rw [Option.bind_eq_some] at heqS
                obtain ⟨line, _, hline⟩ := heqS
                rw [Option.bind_eq_some] at hline
                obtain ⟨tok, _, htok⟩ := hline
                exact lt_of_le_of_ne (parseNumber_nonneg htok) (Ne.symm hns)
      case _ => exact absurd h (by simp)

/-! ## C10 — invariants of every parsed signal -/

/-- **C10.** Every signal returned by either tier has a positive entry
price and stop loss (the falsiness guards reject `null`, `0` and `NaN`,
and the numeric extraction only produces non-negative values) and a
non-empty take-profit list; a caller never receives a zero, negative or
`NaN` entry or stop-loss (those fields are plain rationals in the model,
`NaN` being unrepresentable there by construction). -/
theorem C10_signalInvariants (msg : List Char) (sig : TradeSignal)
    (h : parseTradeSignal msg = some sig ∨ parseTradeSignalGeneric msg = some sig) :
    0 < sig.entryPrice ∧ 0 < sig.stopLoss ∧ sig.takeProfits ≠ [] := by
  obtain ⟨⟨l, htp, hl⟩, he, hsl⟩ := h.elim parse_shape parseGeneric_shape
  refine ⟨he, hsl, ?_⟩
  rw [htp]
  intro hnil
  have hlen : (sortTPs sig.side l).length = 0 := by rw [hnil]; rfl
  rw [show sortTPs sig.side l = sortLe (leJs sig.side) l from rfl,
    length_sortLe] at hlen
  exact hl (List.length_eq_zero.mp hlen)

/-- The Tier-1 signal of the C10 witness input. -/
def msgW10 : List Char :=
  "SOL LONG SCALP\n\nLeverage: 10-25x\nEntry: 142.4\nStop Loss: 141.6\nTake Profit: 145-148".data

/-- The parse result of `msgW10`. -/
def sigW10 : TradeSignal :=
  { symbol := "SOLUSDT".data, side := Side.LONG, entryPrice := 142.4,
    takeProfits := [some 145, some 148], stopLoss := 141.6,
    leverage := some 10, positionSize := none, raw := msgW10 }

set_option maxRecDepth 100000 in
unseal Rat.add Rat.mul Rat.inv Rat.sub Rat.ofScientific in
/-- Witness for C10 on the first README sample signal. -/
theorem C10_signalInvariants_witness :
    0 < sigW10.entryPrice ∧ 0 < sigW10.stopLoss ∧ sigW10.takeProfits ≠ [] :=
  C10_signalInvariants msgW10 sigW10 (Or.inl (by decide))

/-! ## C4 — take-profit ordering -/

/-- JavaScript `a <= b` on two possibly-`NaN` numbers: true only when both
are numbers and the comparison holds (`NaN <= x` and `x <= NaN` are false). -/
def jsLeProp (a b : JsNum) : Prop :=
  ∃ qa qb, a = some qa ∧ b = some qb ∧ qa ≤ qb

/-- The C4 counterexample input: the Tier-1 take-profit range regex
captures `","` (which parses to `NaN`) and `"5"`. -/
def msgC4 : List Char := "AB LONG\nEntry: 5\nStop Loss: 4\nTake Profit: ,-5".data

/-- The parse result of `msgC4`: a LONG signal whose take-profit list still
contains the `NaN`. -/
def sigC4 : TradeSignal :=
  { symbol := "ABUSDT".data, side := Side.LONG, entryPrice := 5,
    takeProfits := [none, some 5], stopLoss := 4,
    leverage := none, positionSize := none, raw := msgC4 }

set_option maxRecDepth 100000 in
unseal Rat.add Rat.mul Rat.inv Rat.sub Rat.ofScientific in
/-- **C4 counterexample.**  Parsing `msgC4` succeeds with side `LONG` and
`takeProfits = [NaN, 5]`; under the JS ordering `takeProfits[0] ≤
takeProfits[1]` is false, so the list is not sorted ascending. -/
theorem C4_counterexample :
    parseTradeSignal msgC4 = some sigC4 ∧ sigC4.side = Side.LONG ∧
    ¬ List.Sorted jsLeProp sigC4.takeProfits := by
  refine ⟨by decide, rfl, ?_⟩
  intro hs
  have h01 := (List.sorted_cons.mp hs).1 (some 5) (by simp [sigC4])
  obtain ⟨qa, qb, hqa, -, -⟩ := h01
  exact absurd hqa (by simp)

/-- **C4 (amended).**  For every input on which parsing succeeds (either
tier), if every element of the returned `takeProfits` is a number (no
`NaN` marker — Tier-1 extraction can push a `NaN`), then the list is
sorted monotonically favorably from entry given the side: ascending for
`LONG`, descending for `SHORT`, regardless of the order the targets
appeared in the message. -/
theorem C4_takeProfitsSorted (msg : List Char) (sig : TradeSignal)
    (h : parseTradeSignal msg = some sig ∨ parseTradeSignalGeneric msg = some sig)
    (qs : List ℚ) (hqs : sig.takeProfits = qs.map some) :
    (sig.side = Side.LONG → qs.Sorted (· ≤ ·)) ∧
    (sig.side = Side.SHORT → qs.Sorted (· ≥ ·)) := by
  obtain ⟨⟨l, htp, -⟩, -, -⟩ := h.elim parse_shape parseGeneric_shape
  have h2 : sortTPs sig.side l = qs.map some := by rw [← htp, hqs]
  have hlsome : ∀ x ∈ l, x ≠ (none : JsNum) := by
    intro x hx hnone
    have hmem : x ∈ sortTPs sig.side l := mem_sortLe.mpr hx
    rw [h2] at hmem
    obtain ⟨q, -, hq⟩ := List.mem_map.mp hmem
    exact (by simp [hnone] at hq)
  obtain ⟨l₀, rfl⟩ := exists_map_some_of_ne_none hlsome
  rw [sortTPs_map_some] at h2
  have hqseq : sortLe (leQ sig.side) l₀ = qs :=
    List.map_injective_iff.mpr (fun a b => Option.some_inj.mp) h2
  constructor
  · intro hside
    rw [← hqseq]
    have hp := @pairwise_sortLe _ (leQ sig.side)
      (fun a b => by
        simp only [leQ, hside, if_pos, decide_eq_true_eq, reduceIte]
        exact le_total a b)
      (fun a b c hab hbc => by
        simp only [leQ, hside, decide_eq_true_eq, reduceIte] at hab hbc ⊢
        exact hab.trans hbc)
      l₀
    refine hp.imp ?_
    intro a b hab
    simpa only [leQ, hside, decide_eq_true_eq, reduceIte] using hab
  · intro hside
    rw [← hqseq]
    have hp := @pairwise_sortLe _ (leQ sig.side)
      (fun a b => by
        simp only [leQ, hside]
        simpa using le_total b a)
      (fun a b c hab hbc => by
        simp only [leQ, hside] at hab hbc ⊢
        simp only [show (Side.SHORT = Side.LONG) = False by simp,
          if_false, decide_eq_true_eq] at hab hbc ⊢
        exact hbc.trans hab)
      l₀
    refine hp.imp ?_
    intro a b hab
    simp only [leQ, hside] at hab
    simpa using hab

/-- The C4 witness input (a Tier-1 range). -/
def msgW4 : List Char := "CD LONG\nEntry: 5\nStop Loss: 4\nTake Profit: 6-7".data

/-- The parse result of `msgW4`. -/
def sigW4 : TradeSignal :=
  { symbol := "CDUSDT".data, side := Side.LONG, entryPrice := 5,
    takeProfits := [some 6, some 7], stopLoss := 4,
    leverage := none, positionSize := none, raw := msgW4 }

set_option maxRecDepth 100000 in
unseal Rat.add Rat.mul Rat.inv Rat.sub Rat.ofScientific in
/-- Witness for C4: the NaN-free parse of `msgW4` has an ascending list. -/
theorem C4_takeProfitsSorted_witness : List.Sorted (· ≤ ·) [(6 : ℚ), 7] :=
  (C4_takeProfitsSorted msgW4 sigW4 (Or.inl (by decide)) [6, 7] (by decide)).1 rfl

/-! ## Lemmas: base64url and UTF-8 round trips -/

theorem b64Sextet_b64Char : ∀ s : ℕ, s < 64 → b64Sextet (b64Char s) = some s := by
  decide

theorem b64_roundtrip : ∀ (bs : List ℕ), (∀ b ∈ bs, b < 256) →
    b64Decode (b64Encode bs) = some bs
  | [], _ => rfl
  | [b0], h => by
      have h0 : b0 < 256 := h b0 (by simp)
      simp only [b64Encode, b64Decode, b64Sextets,
        b64Sextet_b64Char _ (show b0 / 4 < 64 by omega),
        b64Sextet_b64Char _ (show b0 % 4 * 16 < 64 by omega),
        b64Bytes, Option.some_bind, Option.some_inj, List.cons.injEq, and_true]
      omega
  | [b0, b1], h => by
      have h0 : b0 < 256 := h b0 (by simp)
      have h1 : b1 < 256 := h b1 (by simp)
      simp only [b64Encode, b64Decode, b64Sextets,
        b64Sextet_b64Char _ (show b0 / 4 < 64 by omega),
        b64Sextet_b64Char _ (show b0 % 4 * 16 + b1 / 16 < 64 by omega),
        b64Sextet_b64Char _ (show b1 % 16 * 4 < 64 by omega),
        b64Bytes, Option.some_bind, Option.some_inj, List.cons.injEq, and_true]
      exact ⟨by omega, by omega⟩
  | b0 :: b1 :: b2 :: rest, h => by
      have h0 : b0 < 256 := h b0 (by simp)
      have h1 : b1 < 256 := h b1 (by simp)
      have h2 : b2 < 256 := h b2 (by simp)
      have ih := b64_roundtrip rest fun b hb => h b (by simp [hb])
      unfold b64Decode at ih
      obtain ⟨ss, hss, hbytes⟩ := Option.bind_eq_some.mp ih
      simp only [b64Encode, b64Decode, b64Sextets, hss,
        b64Sextet_b64Char _ (show b0 / 4 < 64 by omega),
        b64Sextet_b64Char _ (show b0 % 4 * 16 + b1 / 16 < 64 by omega),
        b64Sextet_b64Char _ (show b1 % 16 * 4 + b2 / 64 < 64 by omega),
        b64Sextet_b64Char _ (show b2 % 64 < 64 by omega)]
      rw [Option.some_bind]
      have hb : b64Bytes (b0 / 4 :: (b0 % 4 * 16 + b1 / 16) ::
            (b1 % 16 * 4 + b2 / 64) :: b2 % 64 :: ss) =
          (b64Bytes ss).map (fun bs =>
            (b0 / 4 * 4 + (b0 % 4 * 16 + b1 / 16) / 16) ::
            ((b0 % 4 * 16 + b1 / 16) % 16 * 16 + (b1 % 16 * 4 + b2 / 64) / 4) ::
            ((b1 % 16 * 4 + b2 / 64) % 4 * 64 + b2 % 64) :: bs) := rfl
      rw [hb, hbytes]
      simp only [Option.map_some', Option.some_inj, List.cons.injEq]
      refine ⟨by omega, by omega, by omega, trivial⟩

theorem utf8Encode_ascii_eq : ∀ {s : List Char}, (∀ c ∈ s, c.toNat < 128) →
    utf8Encode s = s.map Char.toNat := by
  intro s
  induction s with
  | nil => intro _; rfl
  | cons c cs ih =>
      intro h
      have hc : c.toNat < 128 := h c (by simp)
      have h1 : utf8EncodeChar c = [c.toNat] := by
        unfold utf8EncodeChar; rw [if_pos hc]
      have hcs := ih fun x hx => h x (by simp [hx])
      unfold utf8Encode at hcs ⊢
      rw [List.flatMap_cons, h1, hcs]
      rfl

theorem utf8DecodeFuel_ascii : ∀ (s : List Char) (fuel : ℕ),
    (∀ c ∈ s, c.toNat < 128) → s.length < fuel →
    utf8DecodeFuel fuel (utf8Encode s) = some s := by
  intro s
  induction s with
  | nil =>
      intro fuel _ _
      rw [show utf8Encode [] = [] from rfl]
      cases fuel <;> rfl
  | cons c cs ih =>
      intro fuel h hlen
      have hc : c.toNat < 128 := h c (by simp)
      cases fuel with
      | zero => exact absurd hlen (by omega)
      | succ f =>
          have hcs := ih f (fun x hx => h x (by simp [hx]))
            (by simp only [List.length_cons] at hlen; omega)
          have henc : utf8Encode (c :: cs) = c.toNat :: utf8Encode cs := by
            rw [utf8Encode_ascii_eq h, List.map_cons, ← utf8Encode_ascii_eq
              (fun x hx => h x (by simp [hx]))]
          rw [henc]
          simp only [utf8DecodeFuel, if_pos hc, hcs, Option.map_some',
            charOfNat_toNat_self]

theorem utf8_roundtrip_ascii (s : List Char) (h : ∀ c ∈ s, c.toNat < 128) :
    utf8Decode (utf8Encode s) = some s := by
  apply utf8DecodeFuel_ascii s _ h
  rw [utf8Encode_ascii_eq h, List.length_map]
  omega

theorem utf8Encode_ascii_bytes {s : List Char} (h : ∀ c ∈ s, c.toNat < 128) :
    ∀ b ∈ utf8Encode s, b < 256 := by
  rw [utf8Encode_ascii_eq h]
  intro b hb
  obtain ⟨c, hc, rfl⟩ := List.mem_map.mp hb
  have := h c hc
  omega

/-! ## Lemmas: decimal printing and reparsing -/

theorem digitChar_toNat : ∀ d, d < 10 → (digitChar d).toNat = 48 + d := by decide

theorem digitChar_isDigit : ∀ d, d < 10 → isDigitC (digitChar d) = true := by decide

theorem digitsVal_append_singleton (xs : List Char) (c : Char) :
    digitsVal (xs ++ [c]) = digitsVal xs * 10 + (c.toNat - 48) := by
  unfold digitsVal
  rw [List.foldl_append]
  rfl

theorem digitsVal_rev_map {ds : List ℕ} (h : ∀ d ∈ ds, d < 10) :
    digitsVal (ds.reverse.map digitChar) = Nat.ofDigits 10 ds := by
  induction ds with
  | nil => rfl
  | cons d rest ih =>
      have hd : d < 10 := h d (by simp)
      rw [List.reverse_cons, List.map_append]
      simp only [List.map_cons, List.map_nil]
      rw [digitsVal_append_singleton, ih fun x hx => h x (by simp [hx]),
        digitChar_toNat d hd, Nat.ofDigits_cons]
      omega

theorem digitsVal_natStr (n : ℕ) : digitsVal (natStr n) = n := by
  unfold natStr
  by_cases h : n = 0
  · rw [if_pos h, h]; rfl
  · rw [if_neg h]
    rw [digitsVal_rev_map fun d hd => Nat.digits_lt_base (by norm_num) hd]
    exact Nat.ofDigits_digits 10 n

theorem natStr_ne_nil (n : ℕ) : natStr n ≠ [] := by
  unfold natStr
  by_cases h : n = 0
  · rw [if_pos h]; simp
  · rw [if_neg h]
    simp only [ne_eq, List.map_eq_nil_iff, List.reverse_eq_nil_iff]
    exact Nat.digits_ne_nil_iff_ne_zero.mpr h

theorem natStr_chars {n : ℕ} : ∀ c ∈ natStr n, ∃ d, d < 10 ∧ c = digitChar d := by
  unfold natStr
  by_cases h : n = 0
  · rw [if_pos h]
    intro c hc
    simp only [List.mem_singleton] at hc
    exact ⟨0, by norm_num, by simpa using hc⟩
  · rw [if_neg h]
    intro c hc
    obtain ⟨d, hd, rfl⟩ := List.mem_map.mp hc
    exact ⟨d, Nat.digits_lt_base (by norm_num) (List.mem_reverse.mp hd), rfl⟩

theorem natStr_length_le {m k : ℕ} (hk : 1 ≤ k) (hm : m < 10 ^ k) :
    (natStr m).length ≤ k := by
  unfold natStr
  by_cases h : m = 0
  · rw [if_pos h]; simpa using hk
  · rw [if_neg h]
    simp only [List.length_map, List.length_reverse]
    have h1 : 10 ^ (Nat.digits 10 m).length ≤ 10 * m :=
      Nat.base_pow_length_digits_le 10 m (by norm_num) h
    have h2 : 10 * m < 10 ^ (k + 1) := by
      calc 10 * m < 10 * 10 ^ k := by omega
      _ = 10 ^ (k + 1) := by ring
    have h3 := lt_of_le_of_lt h1 h2
    have h4 := (Nat.pow_lt_pow_iff_right (by norm_num : 1 < 10)).mp h3
    omega

theorem digitsVal_replicate_zero (z : ℕ) (ds : List Char) :
    digitsVal (List.replicate z '0' ++ ds) = digitsVal ds := by
  induction z with
  | zero => rfl
  | succ z ih =>
      rw [List.replicate_succ, List.cons_append]
      show digitsVal (List.replicate z '0' ++ ds) = _
      exact ih

theorem digitsVal_padZeros (k : ℕ) (ds : List Char) :
    digitsVal (padZeros k ds) = digitsVal ds :=
  digitsVal_replicate_zero _ _

theorem padZeros_length {k : ℕ} {ds : List Char} (h : ds.length ≤ k) :
    (padZeros k ds).length = k := by
  unfold padZeros
  simp only [List.length_append, List.length_replicate]
  omega

theorem padZeros_chars {k : ℕ} {ds : List Char} :
    ∀ c ∈ padZeros k ds, c = '0' ∨ c ∈ ds := by
  unfold padZeros
  intro c hc
  rcases List.mem_append.mp hc with hc' | hc'
  · exact Or.inl (List.eq_of_mem_replicate hc')
  · exact Or.inr hc'

theorem takeWhile_all {p : Char → Bool} :
    ∀ {xs : List Char}, (∀ x ∈ xs, p x = true) → xs.takeWhile p = xs := by
  intro xs
  induction xs with
  | nil => intro _; rfl
  | cons x l ih =>
      intro h
      rw [List.takeWhile_cons, if_pos (h x (by simp))]
      rw [ih fun y hy => h y (by simp [hy])]

theorem dropWhile_all_false {p : Char → Bool} :
    ∀ {xs : List Char}, (∀ x ∈ xs, p x = false) → xs.dropWhile p = xs := by
  intro xs
  induction xs with
  | nil => intro _; rfl
  | cons x l ih =>
      intro h
      rw [List.dropWhile_cons, if_neg (by simp [h x (by simp)])]

theorem takeWhile_all_append {p : Char → Bool} {xs : List Char} {y : Char}
    (ys : List Char) (hxs : ∀ x ∈ xs, p x = true) (hy : p y = false) :
    (xs ++ y :: ys).takeWhile p = xs := by
  induction xs with
  | nil => simp [List.takeWhile_cons, hy]
  | cons x l ih =>
      rw [List.cons_append, List.takeWhile_cons, if_pos (hxs x (by simp))]
      rw [ih fun z hz => hxs z (by simp [hz])]

theorem trimWS_all_false {s : List Char} (h : ∀ c ∈ s, isWSC c = false) :
    trimWS s = s := by
  unfold trimWS
  rw [dropWhile_all_false h, dropWhile_all_false
    (fun c hc => h c (List.mem_reverse.mp hc)), List.reverse_reverse]

theorem decimal_M {q : ℚ} (hq : 0 ≤ q) (hdec : IsDecimal q) :
    ((q * 10 ^ tenExp q.den).num.toNat : ℚ) = q * 10 ^ tenExp q.den := by
  obtain ⟨m, hm⟩ := hdec
  have hm0 : 0 < m := by
    have h1 : (0 : ℤ) < 10 ^ tenExp q.den := by positivity
    have h2 : (0 : ℤ) < q.den := by exact_mod_cast q.pos
    nlinarith [hm]
  have hmQ : (10 : ℚ) ^ tenExp q.den = (q.den : ℚ) * (m : ℚ) := by
    have := congrArg (fun z : ℤ => (z : ℚ)) hm
    push_cast at this
    simpa using this
  have hden : (q.den : ℚ) ≠ 0 := by
    have := q.pos
    positivity
  have key : q * 10 ^ tenExp q.den = ((q.num * m : ℤ) : ℚ) := by
    calc q * 10 ^ tenExp q.den
        = (q.num : ℚ) / (q.den : ℚ) * ((q.den : ℚ) * m) := by
          rw [Rat.num_div_den, hmQ]
      _ = (q.num : ℚ) * m := by field_simp; ring
      _ = ((q.num * m : ℤ) : ℚ) := by push_cast; ring
  have hnm : 0 ≤ q.num * m := by
    have hn : 0 ≤ q.num := Rat.num_nonneg.mpr hq
    positivity
  rw [key, Rat.num_intCast]
  exact_mod_cast congrArg (fun z : ℤ => (z : ℚ)) (Int.toNat_of_nonneg hnm)

theorem digitChar_not_ws : ∀ d, d < 10 → isWSC (digitChar d) = false := by decide

theorem digitChar_not_sign : ∀ d, d < 10 →
    (digitChar d = '-' ∨ digitChar d = '+') = False := by decide

theorem natStr_not_ws {n : ℕ} : ∀ c ∈ natStr n, isWSC c = false := by
  intro c hc
  obtain ⟨d, hd, rfl⟩ := natStr_chars c hc
  exact digitChar_not_ws d hd

theorem natStr_all_digits {n : ℕ} : ∀ c ∈ natStr n, isDigitC c = true := by
  intro c hc
  obtain ⟨d, hd, rfl⟩ := natStr_chars c hc
  exact digitChar_isDigit d hd

theorem natStr_head_not_sign {n : ℕ} {c : Char} (h : (natStr n).head? = some c) :
    ¬(c = '-' ∨ c = '+') := by
  have hc : c ∈ natStr n := by
    cases hs : natStr n with
    | nil => rw [hs] at h; exact absurd h (by simp)
    | cons a l =>
        rw [hs, List.head?_cons] at h
        obtain rfl : a = c := Option.some_inj.mp h
        first
          | exact hs ▸ List.mem_cons_self _ _
          | exact List.mem_cons_self _ _
  obtain ⟨d, hd, rfl⟩ := natStr_chars c hc
  intro hcon
  rw [digitChar_not_sign d hd] at hcon
  exact hcon

theorem padZeros_natStr_digits {k m : ℕ} :
    ∀ c ∈ padZeros k (natStr m), isDigitC c = true := by
  intro c hc
  rcases padZeros_chars c hc with rfl | hc2
  · rfl
  · exact natStr_all_digits c hc2

/-- Unfolded form of `posNumToString`. -/
theorem posNumToString_eq (q : ℚ) : posNumToString q =
    if tenExp q.den = 0 then natStr ((q * 10 ^ tenExp q.den).num.toNat)
    else natStr ((q * 10 ^ tenExp q.den).num.toNat / 10 ^ tenExp q.den) ++
      '.' :: padZeros (tenExp q.den)
        (natStr ((q * 10 ^ tenExp q.den).num.toNat % 10 ^ tenExp q.den)) := rfl

theorem isEmpty_false_of_ne_nil {l : List Char} (h : l ≠ []) :
    l.isEmpty = false := by
  cases l with
  | nil => exact absurd rfl h
  | cons a t => rfl

theorem jsParseFloat_digits (A : List Char) (hAne : A ≠ [])
    (hAd : ∀ c ∈ A, isDigitC c = true)
    (hws : ∀ c ∈ A, isWSC c = false)
    (hsign : ∀ c, A.head? = some c → ¬(c = '-' ∨ c = '+')) :
    jsParseFloat A = some (digitsVal A : ℚ) := by
  have hAe := isEmpty_false_of_ne_nil hAne
  have hns : ¬(A.head? = some '-') := fun h => hsign _ h (Or.inl rfl)
  have hnp : ¬(A.head? = some '+') := fun h => hsign _ h (Or.inr rfl)
  have hsor : ¬(A.head? = some '-' ∨ A.head? = some '+') := by
    rintro (h | h)
    · exact hns h
    · exact hnp h
  simp only [jsParseFloat]
  rw [dropWhile_all_false hws, if_neg hsor, takeWhile_all hAd, List.drop_length]
  simp [hAe, hns, show digitsVal [] = 0 from rfl]

theorem jsParseFloat_decimal (A F0 : List Char) (hAne : A ≠ [])
    (hAd : ∀ c ∈ A, isDigitC c = true)
    (hFd : ∀ c ∈ F0, isDigitC c = true)
    (hws : ∀ c ∈ A ++ '.' :: F0, isWSC c = false)
    (hsign : ∀ c, (A ++ '.' :: F0).head? = some c → ¬(c = '-' ∨ c = '+')) :
    jsParseFloat (A ++ '.' :: F0) =
      some ((digitsVal A : ℚ) + (digitsVal F0 : ℚ) / 10 ^ F0.length) := by
  have hAe := isEmpty_false_of_ne_nil hAne
  have hns : ¬((A ++ '.' :: F0).head? = some '-') := fun h => hsign _ h (Or.inl rfl)
  have hnp : ¬((A ++ '.' :: F0).head? = some '+') := fun h => hsign _ h (Or.inr rfl)
  have hsor : ¬((A ++ '.' :: F0).head? = some '-' ∨
      (A ++ '.' :: F0).head? = some '+') := by
    rintro (h | h)
    · exact hns h
    · exact hnp h
  have hnsA : ¬(A.head? = some '-') := by
    cases A with
    | nil => exact absurd rfl hAne
    | cons a l =>
        intro hcon
        simp only [List.head?_cons, Option.some_inj] at hcon
        subst hcon
        exact hns rfl
  simp only [jsParseFloat]
  rw [dropWhile_all_false hws, if_neg hsor,
    takeWhile_all_append F0 hAd (show isDigitC '.' = false from rfl),
    List.drop_left]
  simp [hAe, hnsA, takeWhile_all hFd]

theorem jsNumber_digits (A : List Char) (hAne : A ≠ [])
    (hAd : ∀ c ∈ A, isDigitC c = true)
    (hws : ∀ c ∈ A, isWSC c = false)
    (hsign : ∀ c, A.head? = some c → ¬(c = '-' ∨ c = '+')) :
    jsNumber A = some (digitsVal A : ℚ) := by
  have hAe := isEmpty_false_of_ne_nil hAne
  have hns : ¬(A.head? = some '-') := fun h => hsign _ h (Or.inl rfl)
  have hnp : ¬(A.head? = some '+') := fun h => hsign _ h (Or.inr rfl)
  have hsor : ¬(A.head? = some '-' ∨ A.head? = some '+') := by
    rintro (h | h)
    · exact hns h
    · exact hnp h
  have hne2 : ¬(A.isEmpty = true) := by simp [hAe]
  simp only [jsNumber]
  rw [trimWS_all_false hws, if_neg hne2, if_neg hsor,
    takeWhile_all hAd, List.drop_length]
  simp [hAe, hns]

theorem jsNumber_decimal (A F0 : List Char) (hAne : A ≠ [])
    (hAd : ∀ c ∈ A, isDigitC c = true)
    (hFd : ∀ c ∈ F0, isDigitC c = true)
    (hws : ∀ c ∈ A ++ '.' :: F0, isWSC c = false)
    (hsign : ∀ c, (A ++ '.' :: F0).head? = some c → ¬(c = '-' ∨ c = '+')) :
    jsNumber (A ++ '.' :: F0) =
      some ((digitsVal A : ℚ) + (digitsVal F0 : ℚ) / 10 ^ F0.length) := by
  have hAe := isEmpty_false_of_ne_nil hAne
  have hane2 : (A ++ '.' :: F0) ≠ [] := by simp
  have hns : ¬((A ++ '.' :: F0).head? = some '-') := fun h => hsign _ h (Or.inl rfl)
  have hnp : ¬((A ++ '.' :: F0).head? = some '+') := fun h => hsign _ h (Or.inr rfl)
  have hsor : ¬((A ++ '.' :: F0).head? = some '-' ∨
      (A ++ '.' :: F0).head? = some '+') := by
    rintro (h | h)
    · exact hns h
    · exact hnp h
  have hne2 : ¬((A ++ '.' :: F0).isEmpty = true) := by
    simp [isEmpty_false_of_ne_nil hane2]
  have hnsA : ¬(A.head? = some '-') := by
    cases A with
    | nil => exact absurd rfl hAne
    | cons a l =>
        intro hcon
        simp only [List.head?_cons, Option.some_inj] at hcon
        subst hcon
        exact hns rfl
  simp only [jsNumber]
  rw [trimWS_all_false hws, if_neg hne2, if_neg hsor,
    takeWhile_all_append F0 hAd (show isDigitC '.' = false from rfl),
    List.drop_left]
  simp [hAe, hnsA, takeWhile_all hFd]

/-- Reparsing the printed form of a non-negative finite decimal recovers it,
both under `parseFloat` (decoder entry/stop-loss path) and under `Number`
(decoder take-profit path). -/
theorem parse_back_posNumToString {q : ℚ} (hq : 0 ≤ q) (hdec : IsDecimal q) :
    jsParseFloat (posNumToString q) = some q ∧
    jsNumber (posNumToString q) = some q := by
  have hMQ := decimal_M hq hdec
  rw [posNumToString_eq]
  by_cases hk0 : tenExp q.den = 0
  · rw [if_pos hk0]
    have hMq : ((q * 10 ^ tenExp q.den).num.toNat : ℚ) = q := by
      rw [hMQ, hk0]; ring
    have hv : (digitsVal (natStr (q * 10 ^ tenExp q.den).num.toNat) : ℚ) = q := by
      rw [digitsVal_natStr, hMq]
    constructor
    · rw [jsParseFloat_digits _ (natStr_ne_nil _) natStr_all_digits
        natStr_not_ws (fun c h => natStr_head_not_sign h), hv]
    · rw [jsNumber_digits _ (natStr_ne_nil _) natStr_all_digits
        natStr_not_ws (fun c h => natStr_head_not_sign h), hv]
  · rw [if_neg hk0]
    have hk1 : 1 ≤ tenExp q.den := by omega
    have hF0len : (padZeros (tenExp q.den)
        (natStr ((q * 10 ^ tenExp q.den).num.toNat % 10 ^ tenExp q.den))).length
        = tenExp q.den :=
      padZeros_length (natStr_length_le hk1 (Nat.mod_lt _ (by positivity)))
    have hws : ∀ c ∈ natStr ((q * 10 ^ tenExp q.den).num.toNat / 10 ^ tenExp q.den)
        ++ '.' :: padZeros (tenExp q.den)
          (natStr ((q * 10 ^ tenExp q.den).num.toNat % 10 ^ tenExp q.den)),
        isWSC c = false := by
      intro c hc
      rcases List.mem_append.mp hc with hc1 | hc1
      · exact natStr_not_ws c hc1
      · rcases List.mem_cons.mp hc1 with rfl | hc2
        · rfl
        · rcases padZeros_chars c hc2 with rfl | hc3
          · rfl
          · exact natStr_not_ws c hc3
    have hsign : ∀ c, (natStr ((q * 10 ^ tenExp q.den).num.toNat / 10 ^ tenExp q.den)
        ++ '.' :: padZeros (tenExp q.den)
          (natStr ((q * 10 ^ tenExp q.den).num.toNat % 10 ^ tenExp q.den))).head?
        = some c → ¬(c = '-' ∨ c = '+') := by
      intro c h
      have hh : (natStr ((q * 10 ^ tenExp q.den).num.toNat
          / 10 ^ tenExp q.den)).head? = some c := by
        rw [← h]
        cases hs : natStr ((q * 10 ^ tenExp q.den).num.toNat
            / 10 ^ tenExp q.den) with
        | nil => exact absurd hs (natStr_ne_nil _)
        | cons a l => rfl
      exact natStr_head_not_sign hh
    have hval : (digitsVal (natStr ((q * 10 ^ tenExp q.den).num.toNat
          / 10 ^ tenExp q.den)) : ℚ) +
        (digitsVal (padZeros (tenExp q.den)
          (natStr ((q * 10 ^ tenExp q.den).num.toNat % 10 ^ tenExp q.den))) : ℚ)
          / 10 ^ (padZeros (tenExp q.den)
          (natStr ((q * 10 ^ tenExp q.den).num.toNat % 10 ^ tenExp q.den))).length
        = q := by
      rw [hF0len, digitsVal_padZeros, digitsVal_natStr, digitsVal_natStr]
      have h10 : ((10 : ℚ)) ^ tenExp q.den ≠ 0 := by positivity
      have hdm := Nat.div_add_mod ((q * 10 ^ tenExp q.den).num.toNat)
        (10 ^ tenExp q.den)
      have hcast := congrArg (fun z : ℕ => (z : ℚ)) hdm
      push_cast at hcast
      field_simp
      linarith [hMQ, hcast]
    rw [jsParseFloat_decimal _ _ (natStr_ne_nil _) natStr_all_digits
        padZeros_natStr_digits hws hsign,
      jsNumber_decimal _ _ (natStr_ne_nil _) natStr_all_digits
        padZeros_natStr_digits hws hsign, hval]
    exact ⟨rfl, rfl⟩

/-! ## Lemmas: joining and splitting the payload -/

theorem splitOnChar_ne_nil (sep : Char) (s : List Char) :
    splitOnChar sep s ≠ [] := by
  obtain ⟨hd, tl, heq, -, -⟩ := splitOnChar_structure sep s
  rw [heq]
  simp

theorem splitOnChar_no_sep {sep : Char} :
    ∀ {s : List Char}, (∀ c ∈ s, c ≠ sep) → splitOnChar sep s = [s] := by
  intro s
  induction s with
  | nil => intro _; rfl
  | cons c cs ih =>
      intro h
      have hc : c ≠ sep := h c (by simp)
      simp only [splitOnChar, ih fun x hx => h x (by simp [hx])]
      rw [if_neg hc]

theorem splitOnChar_append {sep : Char} (rest : List Char) :
    ∀ {a : List Char}, (∀ c ∈ a, c ≠ sep) →
      splitOnChar sep (a ++ sep :: rest) = a :: splitOnChar sep rest := by
  intro a
  induction a with
  | nil =>
      intro _
      simp only [List.nil_append, splitOnChar]
      obtain ⟨hd, tl, heq, -, -⟩ := splitOnChar_structure sep rest
      rw [heq]
      simp
  | cons c cs ih =>
      intro h
      have hc : c ≠ sep := h c (by simp)
      rw [List.cons_append]
      simp only [splitOnChar, ih fun x hx => h x (by simp [hx])]
      rw [if_neg hc]

theorem splitOn_joinSep {sep : Char} :
    ∀ {ps : List (List Char)}, ps ≠ [] →
      (∀ p ∈ ps, ∀ c ∈ p, c ≠ sep) →
      splitOnChar sep (joinSep sep ps) = ps := by
  intro ps
  induction ps with
  | nil => intro h _; exact absurd rfl h
  | cons p t ih =>
      intro _ h
      cases t with
      | nil =>
          show splitOnChar sep (joinSep sep [p]) = [p]
          rw [show joinSep sep [p] = p from rfl]
          exact splitOnChar_no_sep (h p (by simp))
      | cons p2 t2 =>
          rw [show joinSep sep (p :: p2 :: t2) =
            p ++ sep :: joinSep sep (p2 :: t2) from rfl]
          rw [splitOnChar_append _ (h p (by simp))]
          rw [ih (by simp) fun x hx c hc => h x (by simp [hx]) c hc]

theorem mem_joinSep {sep : Char} :
    ∀ {ps : List (List Char)} {c : Char}, c ∈ joinSep sep ps →
      c = sep ∨ ∃ p ∈ ps, c ∈ p := by
  intro ps
  induction ps with
  | nil => intro c hc; exact absurd hc (by simp [joinSep])
  | cons p t ih =>
      intro c hc
      cases t with
      | nil => exact Or.inr ⟨p, by simp, hc⟩
      | cons p2 t2 =>
          rw [show joinSep sep (p :: p2 :: t2) =
            p ++ sep :: joinSep sep (p2 :: t2) from rfl] at hc
          rcases List.mem_append.mp hc with hc1 | hc1
          · exact Or.inr ⟨p, by simp, hc1⟩
          · rcases List.mem_cons.mp hc1 with rfl | hc2
            · exact Or.inl rfl
            · rcases ih hc2 with h | ⟨x, hx, hcx⟩
              · exact Or.inl h
              · exact Or.inr ⟨x, by simp [hx], hcx⟩

theorem joinSep_ne_nil {sep : Char} {p : List Char} {t : List (List Char)}
    (hp : p ≠ []) : joinSep sep (p :: t) ≠ [] := by
  cases t with
  | nil => exact hp
  | cons p2 t2 =>
      rw [show joinSep sep (p :: p2 :: t2) =
        p ++ sep :: joinSep sep (p2 :: t2) from rfl]
      simp

theorem filterMap_roundtrip {f : List Char → JsNum} :
    ∀ {qs : List ℚ}, (∀ q ∈ qs, f (numToString q) = some q) →
      (qs.map numToString).filterMap f = qs := by
  intro qs
  induction qs with
  | nil => intro _; rfl
  | cons q t ih =>
      intro h
      rw [List.map_cons, List.filterMap_cons, h q (by simp)]
      rw [ih fun x hx => h x (by simp [hx])]

/-! ## Lemmas: character sets of the printed numbers -/

theorem posNumToString_chars {q : ℚ} :
    ∀ c ∈ posNumToString q, (∃ d, d < 10 ∧ c = digitChar d) ∨ c = '.' := by
  rw [posNumToString_eq]
  by_cases hk0 : tenExp q.den = 0
  · rw [if_pos hk0]
    intro c hc
    exact Or.inl (natStr_chars c hc)
  · rw [if_neg hk0]
    intro c hc
    rcases List.mem_append.mp hc with hc1 | hc1
    · exact Or.inl (natStr_chars c hc1)
    · rcases List.mem_cons.mp hc1 with rfl | hc2
      · exact Or.inr rfl
      · rcases padZeros_chars c hc2 with rfl | hc3
        · exact Or.inl ⟨0, by norm_num, rfl⟩
        · exact Or.inl (natStr_chars c hc3)

theorem numToString_chars {q : ℚ} :
    ∀ c ∈ numToString q,
      (∃ d, d < 10 ∧ c = digitChar d) ∨ c = '.' ∨ c = '-' := by
  unfold numToString
  by_cases hq : q < 0
  · rw [if_pos hq]
    intro c hc
    rcases List.mem_cons.mp hc with rfl | hc1
    · exact Or.inr (Or.inr rfl)
    · rcases posNumToString_chars c hc1 with h | h
      · exact Or.inl h
      · exact Or.inr (Or.inl h)
  · rw [if_neg hq]
    intro c hc
    rcases posNumToString_chars c hc with h | h
    · exact Or.inl h
    · exact Or.inr (Or.inl h)

theorem numToString_no_bar {q : ℚ} : ∀ c ∈ numToString q, c ≠ '|' := by
  intro c hc
  rcases numToString_chars c hc with ⟨d, hd, rfl⟩ | rfl | rfl
  · clear hc; revert hd; revert d; decide
  · decide
  · decide

theorem numToString_no_comma {q : ℚ} : ∀ c ∈ numToString q, c ≠ ',' := by
  intro c hc
  rcases numToString_chars c hc with ⟨d, hd, rfl⟩ | rfl | rfl
  · clear hc; revert hd; revert d; decide
  · decide
  · decide

theorem numToString_ascii {q : ℚ} : ∀ c ∈ numToString q, c.toNat < 128 := by
  intro c hc
  rcases numToString_chars c hc with ⟨d, hd, rfl⟩ | rfl | rfl
  · clear hc; revert hd; revert d; decide
  · decide
  · decide

theorem posNumToString_ne_nil (q : ℚ) : posNumToString q ≠ [] := by
  rw [posNumToString_eq]
  by_cases hk0 : tenExp q.den = 0
  · rw [if_pos hk0]; exact natStr_ne_nil _
  · rw [if_neg hk0]
    intro hcon
    exact natStr_ne_nil _ (List.append_eq_nil.mp hcon).1

theorem numToString_nonneg_eq {q : ℚ} (hq : 0 ≤ q) :
    numToString q = posNumToString q := by
  unfold numToString
  rw [if_neg (not_lt.mpr hq)]

/-! ## C7 — deeplink round trip -/

theorem C7_roundTrip (sig : TradeSignal) (qs : List ℚ)
    (hsym_ne : sig.symbol ≠ [])
    (hsym : ∀ c ∈ sig.symbol, c ≠ '|' ∧ c.toNat < 128)
    (htps : sig.takeProfits = qs.map some) (hqs : qs ≠ [])
    (hq : ∀ q ∈ qs, 0 < q ∧ IsDecimal q)
    (hentry : 0 < sig.entryPrice) (hedec : IsDecimal sig.entryPrice)
    (hsl : 0 < sig.stopLoss) (hsdec : IsDecimal sig.stopLoss) :
    ∃ sig', decodeSignalFromDeeplink (encodeSignalForDeeplink sig) = some sig' ∧
      sig'.symbol = sig.symbol ∧ sig'.side = sig.side ∧
      sig'.entryPrice = sig.entryPrice ∧ sig'.takeProfits = sig.takeProfits ∧
      sig'.stopLoss = sig.stopLoss := by
  have hsideS : (if sig.side = Side.LONG then "L".data else "S".data) = "L".data ∨
      (if sig.side = Side.LONG then "L".data else "S".data) = "S".data := by
    cases hS : sig.side <;> simp [hS]
  set sideS := (if sig.side = Side.LONG then "L".data else "S".data) with hside
  set entryS := numToString sig.entryPrice with hentryS
  set tpsS := joinSep ',' (sig.takeProfits.map jsNumToString) with htpsS
  set slS := numToString sig.stopLoss with hslS
  set levS := (match sig.leverage with
    | some l => numToString l
    | none => ([] : List Char)) with hlevS
  have htpsMap : sig.takeProfits.map jsNumToString = qs.map numToString := by
    rw [htps, List.map_map]
    rfl
  have hlev_chars : ∀ c ∈ levS,
      (∃ d, d < 10 ∧ c = digitChar d) ∨ c = '.' ∨ c = '-' := by
    rw [hlevS]
    cases sig.leverage with
    | none => simp
    | some l => exact fun c hc => numToString_chars c hc
  have hlev_bar : ∀ c ∈ levS, c ≠ '|' := by
    intro c hc
    rcases hlev_chars c hc with ⟨d, hd, rfl⟩ | rfl | rfl
    · clear hc; revert hd; revert d; decide
    · decide
    · decide
  have hlev_ascii : ∀ c ∈ levS, c.toNat < 128 := by
    intro c hc
    rcases hlev_chars c hc with ⟨d, hd, rfl⟩ | rfl | rfl
    · clear hc; revert hd; revert d; decide
    · decide
    · decide
  have hsideS_chars : ∀ c ∈ sideS, c = 'L' ∨ c = 'S' := by
    intro c hc
    rcases hsideS with h | h
    · rw [h] at hc
      exact Or.inl (by simpa using hc)
    · rw [h] at hc
      exact Or.inr (by simpa using hc)
  have htps_bar : ∀ c ∈ tpsS, c ≠ '|' := by
    rw [htpsS, htpsMap]
    intro c hc
    rcases mem_joinSep hc with rfl | ⟨p, hp, hcp⟩
    · decide
    · obtain ⟨x, -, rfl⟩ := List.mem_map.mp hp
      exact numToString_no_bar c hcp
  have htps_ascii : ∀ c ∈ tpsS, c.toNat < 128 := by
    rw [htpsS, htpsMap]
    intro c hc
    rcases mem_joinSep hc with rfl | ⟨p, hp, hcp⟩
    · decide
    · obtain ⟨x, -, rfl⟩ := List.mem_map.mp hp
      exact numToString_ascii c hcp
  have hpayload : encodeSignalForDeeplink sig = b64Encode (utf8Encode
      (sig.symbol ++ '|' :: (sideS ++ '|' :: (entryS ++ '|' ::
        (tpsS ++ '|' :: (slS ++ '|' :: levS)))))) := rfl
  have hascii : ∀ c ∈ sig.symbol ++ '|' :: (sideS ++ '|' :: (entryS ++ '|' ::
      (tpsS ++ '|' :: (slS ++ '|' :: levS)))), c.toNat < 128 := by
    intro c hc
    rcases List.mem_append.mp hc with h1 | h1
    · exact (hsym c h1).2
    rcases List.mem_cons.mp h1 with rfl | h1
    · decide
    rcases List.mem_append.mp h1 with h1 | h1
    · rcases hsideS_chars c h1 with rfl | rfl <;> decide
    rcases List.mem_cons.mp h1 with rfl | h1
    · decide
    rcases List.mem_append.mp h1 with h1 | h1
    · exact numToString_ascii c h1
    rcases List.mem_cons.mp h1 with rfl | h1
    · decide
    rcases List.mem_append.mp h1 with h1 | h1
    · exact htps_ascii c h1
    rcases List.mem_cons.mp h1 with rfl | h1
    · decide
    rcases List.mem_append.mp h1 with h1 | h1
    · exact numToString_ascii c h1
    rcases List.mem_cons.mp h1 with rfl | h1
    · decide
    · exact hlev_ascii c h1
  have hsplit : splitOnChar '|' (sig.symbol ++ '|' :: (sideS ++ '|' ::
      (entryS ++ '|' :: (tpsS ++ '|' :: (slS ++ '|' :: levS))))) =
      [sig.symbol, sideS, entryS, tpsS, slS, levS] := by
    rw [splitOnChar_append _ (fun c hc => (hsym c hc).1)]
    rw [splitOnChar_append _ (fun c hc => by
      rcases hsideS_chars c hc with rfl | rfl <;> decide)]
    rw [splitOnChar_append _ (fun c hc => numToString_no_bar c hc)]
    rw [splitOnChar_append _ htps_bar]
    rw [splitOnChar_append _ (fun c hc => numToString_no_bar c hc)]
    rw [splitOnChar_no_sep hlev_bar]
  rw [hpayload]
  simp only [decodeSignalFromDeeplink]
  rw [b64_roundtrip _ (utf8Encode_ascii_bytes hascii), Option.some_bind,
    utf8_roundtrip_ascii _ hascii]
  split
  next heq => exact Option.noConfusion heq
  next payload heq =>
  injection heq with heq
  subst heq
  rw [hsplit]
  have hlen5 : ¬ ([sig.symbol, sideS, entryS, tpsS, slS, levS].length < 5) := by
    simp
  rw [if_neg hlen5]
  have g0 : [sig.symbol, sideS, entryS, tpsS, slS, levS].getD 0 [] = sig.symbol := rfl
  have g1 : [sig.symbol, sideS, entryS, tpsS, slS, levS].getD 1 [] = sideS := rfl
  have g2 : [sig.symbol, sideS, entryS, tpsS, slS, levS].getD 2 [] = entryS := rfl
  have g3 : [sig.symbol, sideS, entryS, tpsS, slS, levS].getD 3 [] = tpsS := rfl
  have g4 : [sig.symbol, sideS, entryS, tpsS, slS, levS].getD 4 [] = slS := rfl
  have g5 : [sig.symbol, sideS, entryS, tpsS, slS, levS].getD 5 [] = levS := rfl
  rw [g0, g1, g2, g3, g4, g5]
  have hside_ne : sideS ≠ [] := by
    rcases hsideS with h | h <;> rw [h] <;> decide
  have hentry_ne : entryS ≠ [] := by
    rw [hentryS, numToString_nonneg_eq hentry.le]
    exact posNumToString_ne_nil _
  have hsl_ne : slS ≠ [] := by
    rw [hslS, numToString_nonneg_eq hsl.le]
    exact posNumToString_ne_nil _
  have htps_ne : tpsS ≠ [] := by
    rw [htpsS, htpsMap]
    cases hqq : qs with
    | nil => exact absurd hqq hqs
    | cons q t =>
        rw [List.map_cons]
        refine joinSep_ne_nil ?_
        rw [numToString_nonneg_eq (hq q (by rw [hqq]; simp)).1.le]
        exact posNumToString_ne_nil _
  have hEmp : ¬ ((sig.symbol.isEmpty || sideS.isEmpty || entryS.isEmpty ||
      tpsS.isEmpty || slS.isEmpty) = true) := by
    rw [isEmpty_false_of_ne_nil hsym_ne, isEmpty_false_of_ne_nil hside_ne,
      isEmpty_false_of_ne_nil hentry_ne, isEmpty_false_of_ne_nil htps_ne,
      isEmpty_false_of_ne_nil hsl_ne]
    decide
  rw [if_neg hEmp]
  have hparseTp : ∀ q ∈ qs, jsNumber (numToString q) = some q := by
    intro q hq'
    rw [numToString_nonneg_eq (hq q hq').1.le]
    exact (parse_back_posNumToString (hq q hq').1.le (hq q hq').2).2
  have hsplitTps : splitOnChar ',' tpsS = qs.map numToString := by
    rw [htpsS, htpsMap]
    refine splitOn_joinSep (by simpa using hqs) ?_
    intro p hp c hc
    obtain ⟨x, -, rfl⟩ := List.mem_map.mp hp
    exact numToString_no_comma c hc
  have hfm : (splitOnChar ',' tpsS).filterMap jsNumber = qs := by
    rw [hsplitTps]
    exact filterMap_roundtrip hparseTp
  rw [hfm]
  have hqsE : qs.isEmpty = false := by
    cases hqq : qs with
    | nil => exact absurd hqq hqs
    | cons q t => rfl
  have hqsE' : ¬ (qs.isEmpty = true) := by rw [hqsE]; decide
  rw [if_neg hqsE']
  have hpe : jsParseFloat entryS = some sig.entryPrice := by
    rw [hentryS, numToString_nonneg_eq hentry.le]
    exact (parse_back_posNumToString hentry.le hedec).1
  have hps : jsParseFloat slS = some sig.stopLoss := by
    rw [hslS, numToString_nonneg_eq hsl.le]
    exact (parse_back_posNumToString hsl.le hsdec).1
  rw [hpe, hps]
  have hside_back : (if sideS = "L".data then Side.LONG else Side.SHORT) = sig.side := by
    cases hS : sig.side <;> simp [hside, hS]
  exact ⟨_, rfl, rfl, hside_back, rfl, htps.symm, rfl⟩

/-- The C7 counterexample signal: positive finite entry and stop-loss
prices but an empty take-profit list.  The encoder happily produces a
token for it (`takeProfits.map(...).join(',')` is the empty string), but
the decoder's guard `takeProfits.length === 0 → null` rejects it. -/
def sigC7bad : TradeSignal :=
  { symbol := "AB".data, side := Side.LONG, entryPrice := 100,
    takeProfits := [], stopLoss := 90,
    leverage := none, positionSize := none, raw := [] }

set_option maxRecDepth 100000 in
unseal Rat.add Rat.mul Rat.inv Rat.sub Rat.ofScientific in
/-- **C7 counterexample.**  `sigC7bad` has positive finite prices, yet
decoding its own encoding yields `null` rather than a signal with
identical fields: the take-profit field of the token is empty, so the
decoder's emptiness guard fires.  The round trip therefore does not hold
for *every* signal with positive finite prices. -/
theorem C7_counterexample :
    0 < sigC7bad.entryPrice ∧ 0 < sigC7bad.stopLoss ∧
    decodeSignalFromDeeplink (encodeSignalForDeeplink sigC7bad) = none := by
  refine ⟨by decide, by decide, ?_⟩
  have hpayload : encodeSignalForDeeplink sigC7bad = b64Encode (utf8Encode
      ("AB".data ++ '|' :: ("L".data ++ '|' :: (numToString (100 : ℚ) ++ '|' ::
        (([] : List Char) ++ '|' :: (numToString (90 : ℚ) ++ '|' ::
          ([] : List Char))))))) := rfl
  have hascii : ∀ c ∈ "AB".data ++ '|' :: ("L".data ++ '|' ::
      (numToString (100 : ℚ) ++ '|' :: (([] : List Char) ++ '|' ::
        (numToString (90 : ℚ) ++ '|' :: ([] : List Char))))), c.toNat < 128 := by
    intro c hc
    rcases List.mem_append.mp hc with h1 | h1
    · rcases (by simpa using h1 : c = 'A' ∨ c = 'B') with rfl | rfl <;> decide
    rcases List.mem_cons.mp h1 with rfl | h1
    · decide
    rcases List.mem_append.mp h1 with h1 | h1
    · obtain rfl := (by simpa using h1 : c = 'L')
      decide
    rcases List.mem_cons.mp h1 with rfl | h1
    · decide
    rcases List.mem_append.mp h1 with h1 | h1
    · exact numToString_ascii c h1
    rcases List.mem_cons.mp h1 with rfl | h1
    · decide
    rcases List.mem_append.mp h1 with h1 | h1
    · exact absurd h1 (List.not_mem_nil c)
    rcases List.mem_cons.mp h1 with rfl | h1
    · decide
    rcases List.mem_append.mp h1 with h1 | h1
    · exact numToString_ascii c h1
    rcases List.mem_cons.mp h1 with rfl | h1
    · decide
    · exact absurd h1 (List.not_mem_nil c)
  have hsplit : splitOnChar '|' ("AB".data ++ '|' :: ("L".data ++ '|' ::
      (numToString (100 : ℚ) ++ '|' :: (([] : List Char) ++ '|' ::
        (numToString (90 : ℚ) ++ '|' :: ([] : List Char)))))) =
      ["AB".data, "L".data, numToString (100 : ℚ), [], numToString (90 : ℚ), []] := by
    rw [splitOnChar_append _ (fun c hc => by
      rcases (by simpa using hc : c = 'A' ∨ c = 'B') with rfl | rfl <;> decide)]
    rw [splitOnChar_append _ (fun c hc => by
      obtain rfl := (by simpa using hc : c = 'L')
      decide)]
    rw [splitOnChar_append _ (fun c hc => numToString_no_bar c hc)]
    rw [splitOnChar_append _ (fun c hc => absurd hc (List.not_mem_nil c))]
    rw [splitOnChar_append _ (fun c hc => numToString_no_bar c hc)]
    rw [splitOnChar_no_sep (fun c hc => absurd hc (List.not_mem_nil c))]
  rw [hpayload]
  simp only [decodeSignalFromDeeplink]
  rw [b64_roundtrip _ (utf8Encode_ascii_bytes hascii), Option.some_bind,
    utf8_roundtrip_ascii _ hascii]
  split
  next heq => rfl
  next payload heq =>
  injection heq with heq
  subst heq
  rw [hsplit]
  have hlen5 : ¬ (["AB".data, "L".data, numToString (100 : ℚ), ([] : List Char),
      numToString (90 : ℚ), ([] : List Char)].length < 5) := by simp
  rw [if_neg hlen5]
  have g0 : ["AB".data, "L".data, numToString (100 : ℚ), ([] : List Char),
      numToString (90 : ℚ), ([] : List Char)].getD 0 [] = "AB".data := rfl
  have g1 : ["AB".data, "L".data, numToString (100 : ℚ), ([] : List Char),
      numToString (90 : ℚ), ([] : List Char)].getD 1 [] = "L".data := rfl
  have g2 : ["AB".data, "L".data, numToString (100 : ℚ), ([] : List Char),
      numToString (90 : ℚ), ([] : List Char)].getD 2 [] = numToString (100 : ℚ) := rfl
  have g3 : ["AB".data, "L".data, numToString (100 : ℚ), ([] : List Char),
      numToString (90 : ℚ), ([] : List Char)].getD 3 [] = ([] : List Char) := rfl
  have g4 : ["AB".data, "L".data, numToString (100 : ℚ), ([] : List Char),
      numToString (90 : ℚ), ([] : List Char)].getD 4 [] = numToString (90 : ℚ) := rfl
  rw [g0, g1, g2, g3, g4]
  have hcond : ("AB".data.isEmpty || "L".data.isEmpty ||
      (numToString (100 : ℚ)).isEmpty || ([] : List Char).isEmpty ||
      (numToString (90 : ℚ)).isEmpty) = true := by simp
  rw [if_pos hcond]

/-- The C7 witness signal (the README's SOL deeplink example, doc comment
of `src/encoding.ts` lines 5–9). -/
def sigC7w : TradeSignal :=
  { symbol := "SOLUSDT".data, side := Side.LONG, entryPrice := 142.4,
    takeProfits := [some 145, some 148], stopLoss := 141.6,
    leverage := some 10, positionSize := none, raw := [] }

set_option maxRecDepth 100000 in
unseal Rat.add Rat.mul Rat.inv Rat.sub Rat.ofScientific in
/-- Witness for C7 on the SOL deeplink example. -/
theorem C7_roundTrip_witness :
    ∃ sig', decodeSignalFromDeeplink (encodeSignalForDeeplink sigC7w) = some sig' ∧
      sig'.symbol = sigC7w.symbol ∧ sig'.side = sigC7w.side ∧
      sig'.entryPrice = sigC7w.entryPrice ∧ sig'.takeProfits = sigC7w.takeProfits ∧
      sig'.stopLoss = sigC7w.stopLoss :=
  C7_roundTrip sigC7w [145, 148] (by decide) (by decide) (by decide) (by decide)
    (by decide) (by decide) (by decide) (by decide) (by decide)

end TradeBot
